import Mathlib

set_option maxRecDepth 100000

/-!
Verification of the duplicate-file detector (`src/duplicate_detector.py`).

The detector scans a directory tree in three sequential stages — enumeration
(`get_all_files`), size bucketing (`group_by_size`) and content hashing
(`find_duplicates_by_hash`) — orchestrated by `find_duplicates`, with a
cooperative cancellation flag and a progress callback.

Embedding notes:
* Bytes are `Nat` (values < 256 on real inputs); file paths are lists of
  path components (`os.path.join root name` is `root ++ [name]`, and
  `os.path.basename` is the last component).  `_normalize_path` — what
  `Path.resolve()` answers, including symlink resolution — is the oracle
  `normalize`, applied to each discovered file exactly where the source
  applies it, before the hidden/isfile checks.  `resolve` is idempotent,
  so re-normalizing the already-resolved enumerated paths inside
  `get_file_size` and `calculate_md5` changes nothing and is not
  re-applied there.
* The operating system is an oracle `fs : Path → FileRec` answering
  `os.path.isfile`, `os.path.getsize` (`none` = OSError) and `open`/`read`
  (`none` = IOError), and `os.walk` is modelled by its yielded sequence of
  `(directory, filenames)` pairs (empty for a missing or non-directory root,
  exactly as `os.walk` swallows the scandir error).
* The cancellation flag is written by another thread; each `self.stop_search`
  read is a poll point, so the flag is a function of the poll counter `t`,
  which every check advances by one.
* Progress callbacks are collected as an event list of `(percent, message)`
  pairs, percent as `ℚ` (Python float division, idealized as exact).
* `hashlib.md5` is implemented in full (padding, 64 rounds); the `update`
  accumulator carries the bytes fed so far, per the documented semantics
  that feeding chunks sequentially equals feeding their concatenation.
-/

namespace DupDetect

abbrev Byte := Nat

abbrev Path := List String

abbrev Events := List (ℚ × String)

/-- Split a list into chunks as `iter(lambda: f.read(n), b"")` yields them:
each chunk takes up to `n` leading elements, until the list is exhausted.
The structural fuel is the list length (every step consumes at least one
element, so `l.length` steps always suffice). -/
def chunkGo (n : Nat) : Nat → List Byte → List (List Byte)
  | _, [] => []
  | 0, l => [l]
  | fuel + 1, x :: xs => (x :: xs.take (n - 1)) :: chunkGo n fuel (xs.drop (n - 1))

def chunksOf (n : Nat) (l : List Byte) : List (List Byte) :=
  chunkGo n l.length l

/-! ### MD5 (RFC 1321), as computed by `hashlib.md5` -/

def add32 (a b : Nat) : Nat := (a + b) % 4294967296

def rotl32 (x s : Nat) : Nat := ((x <<< s) ||| (x >>> (32 - s))) % 4294967296

def notB (x : Nat) : Nat := 4294967295 ^^^ x

def auxF (b c d : Nat) : Nat := (b &&& c) ||| ((notB b) &&& d)

def auxG (b c d : Nat) : Nat := (b &&& d) ||| (c &&& (notB d))

def auxH (b c d : Nat) : Nat := (b ^^^ c) ^^^ d

def auxI (b c d : Nat) : Nat := c ^^^ (b ||| (notB d))

def kTab : List Nat :=
  [0xd76aa478, 0xe8c7b756, 0x242070db, 0xc1bdceee,
   0xf57c0faf, 0x4787c62a, 0xa8304613, 0xfd469501,
   0x698098d8, 0x8b44f7af, 0xffff5bb1, 0x895cd7be,
   0x6b901122, 0xfd987193, 0xa679438e, 0x49b40821,
   0xf61e2562, 0xc040b340, 0x265e5a51, 0xe9b6c7aa,
   0xd62f105d, 0x02441453, 0xd8a1e681, 0xe7d3fbc8,
   0x21e1cde6, 0xc33707d6, 0xf4d50d87, 0x455a14ed,
   0xa9e3e905, 0xfcefa3f8, 0x676f02d9, 0x8d2a4c8a,
   0xfffa3942, 0x8771f681, 0x6d9d6122, 0xfde5380c,
   0xa4beea44, 0x4bdecfa9, 0xf6bb4b60, 0xbebfbc70,
   0x289b7ec6, 0xeaa127fa, 0xd4ef3085, 0x04881d05,
   0xd9d4d039, 0xe6db99e5, 0x1fa27cf8, 0xc4ac5665,
   0xf4292244, 0x432aff97, 0xab9423a7, 0xfc93a039,
   0x655b59c3, 0x8f0ccc92, 0xffeff47d, 0x85845dd1,
   0x6fa87e4f, 0xfe2ce6e0, 0xa3014314, 0x4e0811a1,
   0xf7537e82, 0xbd3af235, 0x2ad7d2bb, 0xeb86d391]

def sTab : List Nat :=
  [7, 12, 17, 22, 7, 12, 17, 22, 7, 12, 17, 22, 7, 12, 17, 22,
   5, 9, 14, 20, 5, 9, 14, 20, 5, 9, 14, 20, 5, 9, 14, 20,
   4, 11, 16, 23, 4, 11, 16, 23, 4, 11, 16, 23, 4, 11, 16, 23,
   6, 10, 15, 21, 6, 10, 15, 21, 6, 10, 15, 21, 6, 10, 15, 21]

def leWord (b0 b1 b2 b3 : Nat) : Nat :=
  b0 % 256 + 256 * (b1 % 256) + 65536 * (b2 % 256) + 16777216 * (b3 % 256)

def blockWords (blk : List Byte) (j : Nat) : Nat :=
  leWord (blk.getD (4 * j) 0) (blk.getD (4 * j + 1) 0)
    (blk.getD (4 * j + 2) 0) (blk.getD (4 * j + 3) 0)

def md5Round (m : Nat → Nat) (st : Nat × Nat × Nat × Nat) (i : Nat) :
    Nat × Nat × Nat × Nat :=
  let a := st.1
  let b := st.2.1
  let c := st.2.2.1
  let d := st.2.2.2
  let f :=
    if i < 16 then auxF b c d
    else if i < 32 then auxG b c d
    else if i < 48 then auxH b c d
    else auxI b c d
  let g :=
    if i < 16 then i
    else if i < 32 then (5 * i + 1) % 16
    else if i < 48 then (3 * i + 5) % 16
    else (7 * i) % 16
  let tmp := add32 (add32 (add32 a f) (kTab.getD i 0)) (m g)
  (d, add32 b (rotl32 tmp (sTab.getD i 0)), b, c)

def md5Block (st : Nat × Nat × Nat × Nat) (blk : List Byte) :
    Nat × Nat × Nat × Nat :=
  let r := (List.range 64).foldl (md5Round (blockWords blk)) st
  (add32 st.1 r.1, add32 st.2.1 r.2.1, add32 st.2.2.1 r.2.2.1,
   add32 st.2.2.2 r.2.2.2)

/-- Eight little-endian bytes of the bit length (mod 2^64). -/
def lenBytes (n : Nat) : List Byte :=
  (List.range 8).map (fun i => n / 256 ^ i % 256)

def padMsg (msg : List Byte) : List Byte :=
  msg ++ [128] ++ List.replicate ((119 - msg.length % 64) % 64) 0 ++
    lenBytes (8 * msg.length)

def w2b (w : Nat) : List Byte :=
  [w % 256, w / 256 % 256, w / 65536 % 256, w / 16777216 % 256]

def md5Bytes (msg : List Byte) : List Byte :=
  let r := (chunksOf 64 (padMsg msg)).foldl md5Block
    (1732584193, 4023233417, 2562383102, 271733878)
  w2b r.1 ++ w2b r.2.1 ++ w2b r.2.2.1 ++ w2b r.2.2.2

/-- The lowercase hex digit for a nibble: codes 48–57 are `0`–`9`, codes
97–102 are `a`–`f`. -/
def hexDigit (n : Nat) : Char := Char.ofNat (if n < 10 then 48 + n else 87 + n)

def hexChars : List Char := (List.range 16).map hexDigit

def hexChar (n : Nat) : Char := hexDigit (n % 16)

def byteHex (b : Byte) : List Char := [hexChar (b / 16), hexChar b]

/-- Lowercase hex digest of the MD5 of `msg`, as `hexdigest()` returns it. -/
def md5hex (msg : List Byte) : String :=
  List.asString ((md5Bytes msg).map byteHex).flatten

/-- `hashlib` accumulator state: the bytes fed to `update` so far
(`m.update(a); m.update(b)` is documented equivalent to `m.update(a+b)`). -/
def md5Update (st : List Byte) (chunk : List Byte) : List Byte := st ++ chunk

def md5Hexdigest (st : List Byte) : String := md5hex st

/-! ### Filesystem model -/

/-- What the OS answers about one path: `os.path.isfile`, `os.path.getsize`
(`none` when it raises) and the readable content (`none` when `open`/`read`
raises). -/
structure FileRec where
  isFile : Bool
  statSize : Option Nat
  content : Option (List Byte)
deriving DecidableEq

/-- A scan context: the cancellation flag as seen at each poll point
(`flag t` is the value `self.stop_search` reads at its `t`-th check), the
filesystem oracle, and `_normalize_path` (`Path.resolve`): two distinct
entries may normalize to the same path when one is a symlink to the
other. -/
structure Ctx where
  flag : Nat → Bool
  fs : Path → FileRec
  normalize : Path → Path

/-- The root argument of a scan.  `os.walk` yields nothing for a missing
path or a non-directory (the scandir error is swallowed); for a directory it
yields its top-down `(directory, filenames)` sequence. -/
inductive RootArg where
  | missing
  | nonDir
  | dir (w : List (Path × List String))

def walkRoot : RootArg → List (Path × List String)
  | .missing => []
  | .nonDir => []
  | .dir w => w

/-- A walk sequence an actual filesystem can produce: directory paths are
pairwise distinct and the filenames listed within one directory are
pairwise distinct. -/
def WalkWF (w : List (Path × List String)) : Prop :=
  (w.map Prod.fst).Nodup ∧ ∀ e ∈ w, e.2.Nodup

instance : DecidablePred WalkWF := fun w => by
  unfold WalkWF; infer_instance

/-! ### The detector (`DuplicateDetector`) -/

/-- `os.path.basename`: the last path component. -/
def basename (p : Path) : String := p.getLast?.getD ""

/-- `s.startswith('.')`: the first character is a dot. -/
def startsDot (s : String) : Bool :=
  match s.data with
  | [] => false
  | c :: _ => c = '.'

/-- `DuplicateDetector.is_hidden_file`. -/
def is_hidden_file (p : Path) : Bool := startsDot (basename p)

def renderPath (p : Path) : String := String.intercalate "/" p

/-- `DuplicateDetector.get_file_size`: `os.path.getsize` under try/except. -/
def get_file_size (ctx : Ctx) (p : Path) : Option Nat := (ctx.fs p).statSize

/-- `DuplicateDetector.calculate_md5`: stream the file in 4096-byte chunks
through the digest accumulator; `none` when the file cannot be read. -/
def calculate_md5 (ctx : Ctx) (p : Path) : Option String :=
  match (ctx.fs p).content with
  | none => none
  | some c => some (md5Hexdigest ((chunksOf 4096 c).foldl md5Update []))

/-- Inner loop of `get_all_files` over one directory's filenames: poll the
flag (break on stop), normalize the joined path, skip hidden names, skip
non-files, append the rest (the normalized path, as the source does).
Returns the collected files and the advanced poll counter. -/
def filesLoop (ctx : Ctx) (d : Path) :
    List String → Nat → List Path → List Path × Nat
  | [], t, acc => (acc, t)
  | fn :: rest, t, acc =>
    if ctx.flag t then (acc, t + 1)
    else
      let p := ctx.normalize (d ++ [fn])
      if is_hidden_file p then filesLoop ctx d rest (t + 1) acc
      else if (ctx.fs p).isFile then filesLoop ctx d rest (t + 1) (acc ++ [p])
      else filesLoop ctx d rest (t + 1) acc

/-- Outer loop of `get_all_files` over the walk sequence: poll the flag
(break on stop), report `(processed/total)*30`, then run the inner loop.
An inner break does not break this loop; the next poll here does. -/
def dirsLoop (ctx : Ctx) (total : Nat) :
    List (Path × List String) → Nat → Nat → List Path → Events →
      List Path × Nat × Events
  | [], _, t, acc, evs => (acc, t, evs)
  | (d, fns) :: rest, processed, t, acc, evs =>
    if ctx.flag t then (acc, t + 1, evs)
    else
      let processed := processed + 1
      let evs := evs ++
        [(((processed : ℚ) / (total : ℚ)) * 30,
          "Scanning directory: " ++ renderPath d)]
      let r := filesLoop ctx d fns (t + 1) acc
      dirsLoop ctx total rest processed r.2 r.1 evs

/-- `DuplicateDetector.get_all_files`: count the directories (no poll), then
walk them collecting regular, non-hidden files. -/
def get_all_files (ctx : Ctx) (root : RootArg) (t : Nat) :
    List Path × Nat × Events :=
  let w := walkRoot root
  dirsLoop ctx w.length w 0 t [] []

/-- Python dict update `d.setdefault(k, []).append(v)` on an
insertion-ordered association list. -/
def dictAppend {κ : Type} [DecidableEq κ] :
    List (κ × List Path) → κ → Path → List (κ × List Path)
  | [], k, v => [(k, [v])]
  | (k', vs) :: rest, k, v =>
    if k' = k then (k', vs ++ [v]) :: rest
    else (k', vs) :: dictAppend rest k v

/-- `d[k]`, the value list at key `k` (first match; `[]` when absent). -/
def findVal {κ : Type} [DecidableEq κ] :
    List (κ × List Path) → κ → List Path
  | [], _ => []
  | (k', vs) :: rest, k => if k' = k then vs else findVal rest k

/-- The final dict comprehension keeping only groups with more than one
member. -/
def keepMulti {κ : Type} (d : List (κ × List Path)) : List (κ × List Path) :=
  d.filter (fun kv => 1 < kv.2.length)

/-- Loop of `group_by_size`: poll the flag (break on stop), report
`30 + (i/total)*30`, query the size, silently skip on failure, else append
to the size bucket. -/
def sizeLoop (ctx : Ctx) (total : Nat) :
    List Path → Nat → Nat → List (Nat × List Path) → Events →
      List (Nat × List Path) × Nat × Events
  | [], _, t, gs, evs => (gs, t, evs)
  | p :: rest, i, t, gs, evs =>
    if ctx.flag t then (gs, t + 1, evs)
    else
      let evs := evs ++
        [((30 : ℚ) + ((i : ℚ) / (total : ℚ)) * 30,
          "Analyzing file sizes: " ++ basename p)]
      match get_file_size ctx p with
      | none => sizeLoop ctx total rest (i + 1) (t + 1) gs evs
      | some sz => sizeLoop ctx total rest (i + 1) (t + 1) (dictAppend gs sz p) evs

/-- `DuplicateDetector.group_by_size`: bucket by size, then keep only
buckets with more than one file. -/
def group_by_size (ctx : Ctx) (files : List Path) (t : Nat) :
    List (Nat × List Path) × Nat × Events :=
  let r := sizeLoop ctx files.length files 0 t [] []
  (keepMulti r.1, r.2.1, r.2.2)

/-- Inner loop of `find_duplicates_by_hash` over one bucket's files: poll
the flag (break on stop), count the file, report
`60 + (processed/total)*40`, hash, silently skip on failure, else append to
the digest group.  Returns dict, processed count, poll counter, events. -/
def hashFiles (ctx : Ctx) (total : Nat) :
    List Path → Nat → Nat → List (String × List Path) → Events →
      List (String × List Path) × Nat × Nat × Events
  | [], processed, t, ds, evs => (ds, processed, t, evs)
  | p :: rest, processed, t, ds, evs =>
    if ctx.flag t then (ds, processed, t + 1, evs)
    else
      let processed := processed + 1
      let evs := evs ++
        [((60 : ℚ) + ((processed : ℚ) / (total : ℚ)) * 40,
          "Calculating hash: " ++ basename p)]
      match calculate_md5 ctx p with
      | none => hashFiles ctx total rest processed (t + 1) ds evs
      | some h =>
        hashFiles ctx total rest processed (t + 1) (dictAppend ds h p) evs

/-- Outer loop of `find_duplicates_by_hash` over the size buckets: poll the
flag (break on stop), then hash the bucket's files. -/
def hashBuckets (ctx : Ctx) (total : Nat) :
    List (Nat × List Path) → Nat → Nat → List (String × List Path) → Events →
      List (String × List Path) × Nat × Events
  | [], _, t, ds, evs => (ds, t, evs)
  | (_, fl) :: rest, processed, t, ds, evs =>
    if ctx.flag t then (ds, t + 1, evs)
    else
      let r := hashFiles ctx total fl processed (t + 1) ds evs
      hashBuckets ctx total rest r.2.1 r.2.2.1 r.1 r.2.2.2

/-- `total_files = sum(len(files) for files in size_groups.values())`. -/
def sumLen (sg : List (Nat × List Path)) : Nat :=
  (sg.map (fun b => b.2.length)).sum

/-- `DuplicateDetector.find_duplicates_by_hash`: hash every file of every
bucket, then keep only digest groups with more than one file. -/
def find_duplicates_by_hash (ctx : Ctx) (sg : List (Nat × List Path))
    (t : Nat) : List (String × List Path) × Nat × Events :=
  let r := hashBuckets ctx (sumLen sg) sg 0 t [] []
  (keepMulti r.1, r.2.1, r.2.2)

/-- `DuplicateDetector.find_duplicates`: the three stages in sequence, with
a stop poll after enumeration and after bucketing (none after hashing), a
starting `0` report and a closing `100` report. -/
def find_duplicates (ctx : Ctx) (root : RootArg) :
    List (String × List Path) × Events :=
  let evs0 : Events := [(0, "Starting duplicate search...")]
  let e := get_all_files ctx root 0
  if ctx.flag e.2.1 then ([], evs0 ++ e.2.2)
  else
    let s := group_by_size ctx e.1 (e.2.1 + 1)
    if ctx.flag s.2.1 then ([], evs0 ++ e.2.2 ++ s.2.2)
    else
      let h := find_duplicates_by_hash ctx s.1 (s.2.1 + 1)
      (h.1, evs0 ++ e.2.2 ++ s.2.2 ++ h.2.2 ++
        [(100, "Found " ++ toString h.1.length ++ " duplicate groups")])

/-! ### Cancellation-free content of the loops

The loops above thread a poll counter and an event list.  When the flag is
never raised, their group content reduces to the following plain
recursions, which the reduction lemmas below establish. -/

def pureSize (ctx : Ctx) : List Path → List (Nat × List Path) →
    List (Nat × List Path)
  | [], gs => gs
  | p :: rest, gs =>
    match get_file_size ctx p with
    | none => pureSize ctx rest gs
    | some sz => pureSize ctx rest (dictAppend gs sz p)

def pureHashFiles (ctx : Ctx) : List Path → List (String × List Path) →
    List (String × List Path)
  | [], ds => ds
  | p :: rest, ds =>
    match calculate_md5 ctx p with
    | none => pureHashFiles ctx rest ds
    | some h => pureHashFiles ctx rest (dictAppend ds h p)

def pureHashBuckets (ctx : Ctx) : List (Nat × List Path) →
    List (String × List Path) → List (String × List Path)
  | [], ds => ds
  | b :: rest, ds => pureHashBuckets ctx rest (pureHashFiles ctx b.2 ds)

/-- All file paths a walk sequence offers before normalization:
`os.path.join(root, filename)` for each yielded pair. -/
def rawPaths (w : List (Path × List String)) : List Path :=
  (w.map (fun e => e.2.map (fun fn => e.1 ++ [fn]))).flatten

/-- The normalized candidate paths of a walk (before the hidden / isfile
filters): what the enumerator appends from.  Distinct raw paths may
collapse to one normalized path when `nf` resolves a symlink. -/
def allPaths (nf : Path → Path) (w : List (Path × List String)) : List Path :=
  (rawPaths w).map nf

/-- Percent reported for the `j`-th directory (0-based) of `total`:
`(processed_dirs / total_dirs) * 30`. -/
def enumPct (total j : Nat) : ℚ := (((j + 1 : Nat) : ℚ) / (total : ℚ)) * 30

/-- Percent reported for the `j`-th file (0-based) of `total` in the size
stage: `30 + (i / total_files) * 30`. -/
def sizePct (total j : Nat) : ℚ := 30 + (((j : Nat) : ℚ) / (total : ℚ)) * 30

/-- Percent reported for the `j`-th file (0-based) of `total` in the hash
stage: `60 + (processed_files / total_files) * 40`. -/
def hashPct (total j : Nat) : ℚ := 60 + (((j + 1 : Nat) : ℚ) / (total : ℚ)) * 40

/-! ### Concrete scan fixtures (used by witnesses and counterexamples) -/

/-- The spec §8 scenario: two "hello" files and one "world" file. -/
def fsHello : Path → FileRec := fun p =>
  if p = ["r", "x", "doc.txt"] then ⟨true, some 5, some [104, 101, 108, 108, 111]⟩
  else if p = ["r", "y", "doc_copy.txt"] then
    ⟨true, some 5, some [104, 101, 108, 108, 111]⟩
  else if p = ["r", "z", "other.txt"] then
    ⟨true, some 5, some [119, 111, 114, 108, 100]⟩
  else ⟨false, none, none⟩

def rootHello : RootArg := .dir
  [(["r"], []), (["r", "x"], ["doc.txt"]), (["r", "y"], ["doc_copy.txt"]),
   (["r", "z"], ["other.txt"])]

def ctxHello : Ctx := ⟨fun _ => false, fsHello, fun p => p⟩

/-- Four one-byte files: `a`/`b` hold "x", `c`/`d` hold "y". -/
def fsQuad : Path → FileRec := fun p =>
  if p = ["r", "a"] then ⟨true, some 1, some [120]⟩
  else if p = ["r", "b"] then ⟨true, some 1, some [120]⟩
  else if p = ["r", "c"] then ⟨true, some 1, some [121]⟩
  else if p = ["r", "d"] then ⟨true, some 1, some [121]⟩
  else ⟨false, none, none⟩

def rootQuad : RootArg := .dir [(["r"], ["a", "b", "c", "d"])]

/-- Stop requested at the 14th poll: during the hashing stage, after `a`
and `b` are hashed and before `c` is. -/
def ctxStop14 : Ctx := ⟨fun t => 14 ≤ t, fsQuad, fun p => p⟩

/-- A hidden directory `.hid` holding two duplicate, non-hidden-named
files. -/
def fsHidden : Path → FileRec := fun p =>
  if p = ["r", ".hid", "a.txt"] then ⟨true, some 2, some [104, 105]⟩
  else if p = ["r", ".hid", "b.txt"] then ⟨true, some 2, some [104, 105]⟩
  else ⟨false, none, none⟩

def rootHidden : RootArg := .dir [(["r"], []), (["r", ".hid"], ["a.txt", "b.txt"])]

def ctxHidden : Ctx := ⟨fun _ => false, fsHidden, fun p => p⟩

/-- Two empty files, one inaccessible file (size query and read both
fail), one unique readable file. -/
def fsMixed : Path → FileRec := fun p =>
  if p = ["r", "e1"] then ⟨true, some 0, some []⟩
  else if p = ["r", "e2"] then ⟨true, some 0, some []⟩
  else if p = ["r", "bad"] then ⟨true, none, none⟩
  else if p = ["r", "u"] then ⟨true, some 3, some [1, 2, 3]⟩
  else ⟨false, none, none⟩

def rootMixed : RootArg := .dir [(["r"], ["e1", "e2", "bad", "u"])]

def ctxMixed : Ctx := ⟨fun _ => false, fsMixed, fun p => p⟩

/-- A file `real.txt` and a symlink `link.txt` to it: two distinct
directory entries that `Path.resolve` maps to the same path. -/
def fsAlias : Path → FileRec := fun p =>
  if p = ["r", "real.txt"] then ⟨true, some 1, some [120]⟩
  else ⟨false, none, none⟩

def normAlias : Path → Path := fun p =>
  if p = ["r", "link.txt"] then ["r", "real.txt"] else p

def rootAlias : RootArg := .dir [(["r"], ["real.txt", "link.txt"])]

def ctxAlias : Ctx := ⟨fun _ => false, fsAlias, normAlias⟩

/-! ## Lemmas: chunking and the digest -/

theorem chunkGo_flatten (n : Nat) : ∀ (fuel : Nat) (l : List Byte),
    l.length ≤ fuel → (chunkGo n fuel l).flatten = l := by
  intro fuel
  induction fuel with
  | zero =>
    intro l hl
    have hnil : l = [] := by cases l <;> simp_all
    subst hnil
    simp [chunkGo]
  | succ f ih =>
    intro l hl
    cases l with
    | nil => simp [chunkGo]
    | cons x xs =>
      have hrec : (xs.drop (n - 1)).length ≤ f := by
        simp only [List.length_drop]
        simp only [List.length_cons] at hl
        omega
      simp only [chunkGo, List.flatten_cons, ih _ hrec, List.cons_append,
        List.take_append_drop]

theorem chunksOf_flatten (n : Nat) (l : List Byte) :
    (chunksOf n l).flatten = l :=
  chunkGo_flatten n l.length l le_rfl

theorem chunkGo_mem (n : Nat) (hn : 0 < n) : ∀ (fuel : Nat) (l ch : List Byte),
    l.length ≤ fuel → ch ∈ chunkGo n fuel l → ch ≠ [] ∧ ch.length ≤ n := by
  intro fuel
  induction fuel with
  | zero =>
    intro l ch hl hm
    have hnil : l = [] := by cases l <;> simp_all
    subst hnil
    simp [chunkGo] at hm
  | succ f ih =>
    intro l ch hl hm
    cases l with
    | nil => simp [chunkGo] at hm
    | cons x xs =>
      simp only [chunkGo, List.mem_cons] at hm
      rcases hm with rfl | hm
      · refine ⟨by simp, ?_⟩
        simp only [List.length_cons, List.length_take]
        omega
      · refine ih _ _ ?_ hm
        simp only [List.length_drop]
        simp only [List.length_cons] at hl
        omega

theorem chunksOf_mem (n : Nat) (hn : 0 < n) (l ch : List Byte)
    (h : ch ∈ chunksOf n l) : ch ≠ [] ∧ ch.length ≤ n :=
  chunkGo_mem n hn l.length l ch le_rfl h

theorem foldl_md5Update : ∀ (cs : List (List Byte)) (st : List Byte),
    cs.foldl md5Update st = st ++ cs.flatten := by
  intro cs
  induction cs with
  | nil => intro st; simp
  | cons c rest ih => intro st; simp [md5Update, ih, List.append_assoc]

/-- Feeding the 4096-byte chunks of `c` through the accumulator hashes
exactly `c`: `calculate_md5` returns the digest of the whole content. -/
theorem calculate_md5_eq (ctx : Ctx) (p : Path) (c : List Byte)
    (h : (ctx.fs p).content = some c) :
    calculate_md5 ctx p = some (md5hex c) := by
  simp [calculate_md5, h, md5Hexdigest, foldl_md5Update, chunksOf_flatten]

theorem length_md5Bytes (msg : List Byte) : (md5Bytes msg).length = 16 := by
  simp [md5Bytes, w2b]

theorem length_md5hex (msg : List Byte) : (md5hex msg).length = 32 := by
  have h : (md5hex msg).length = (((md5Bytes msg).map byteHex).flatten).length := rfl
  rw [h, List.length_flatten, List.map_map]
  have h2 : (md5Bytes msg).map (fun b => (byteHex b).length) =
      List.replicate (md5Bytes msg).length 2 := by
    rw [← List.map_const]
    exact List.map_congr_left (fun b _ => by simp [byteHex, Function.const])
  simp [Function.comp_def, h2, length_md5Bytes]

theorem hexChar_mem (n : Nat) : hexChar n ∈ hexChars := by
  rw [hexChar, hexChars]
  exact List.mem_map_of_mem hexDigit
    (List.mem_range.2 (Nat.mod_lt _ (by norm_num)))

theorem md5hex_data_mem (msg : List Byte) (a : Char)
    (h : a ∈ (md5hex msg).data) : a ∈ hexChars := by
  have h2 : a ∈ ((md5Bytes msg).map byteHex).flatten := h
  rcases List.mem_flatten.1 h2 with ⟨l, hl, hal⟩
  rcases List.mem_map.1 hl with ⟨b, _, rfl⟩
  simp only [byteHex, List.mem_cons, List.not_mem_nil, or_false] at hal
  rcases hal with rfl | rfl <;> exact hexChar_mem _

/-! ## Lemmas: insertion-ordered dictionaries -/

theorem findVal_dictAppend_self {κ : Type} [DecidableEq κ]
    (d : List (κ × List Path)) (k : κ) (v : Path) :
    findVal (dictAppend d k v) k = findVal d k ++ [v] := by
  induction d with
  | nil => simp [dictAppend, findVal]
  | cons e rest ih =>
    obtain ⟨k', vs⟩ := e
    by_cases hk : k' = k
    · subst hk; simp [dictAppend, findVal]
    · simp [dictAppend, findVal, hk, ih]

theorem findVal_dictAppend_ne {κ : Type} [DecidableEq κ]
    (d : List (κ × List Path)) (k k' : κ) (v : Path) (h : k' ≠ k) :
    findVal (dictAppend d k v) k' = findVal d k' := by
  induction d with
  | nil => simp [dictAppend, findVal, Ne.symm h]
  | cons e rest ih =>
    obtain ⟨k0, vs⟩ := e
    by_cases hk : k0 = k
    · subst hk
      simp [dictAppend, findVal, Ne.symm h]
    · simp [dictAppend, findVal, hk, ih]

theorem mem_findVal_dictAppend {κ : Type} [DecidableEq κ]
    (d : List (κ × List Path)) (k k' : κ) (v p : Path)
    (h : p ∈ findVal d k') : p ∈ findVal (dictAppend d k v) k' := by
  by_cases hk : k' = k
  · subst hk
    rw [findVal_dictAppend_self]
    exact List.mem_append_left _ h
  · rwa [findVal_dictAppend_ne _ _ _ _ hk]

theorem findVal_mem {κ : Type} [DecidableEq κ] :
    ∀ (d : List (κ × List Path)) (k : κ),
      findVal d k = [] ∨ (k, findVal d k) ∈ d := by
  intro d
  induction d with
  | nil => intro k; left; rfl
  | cons e rest ih =>
    intro k
    obtain ⟨k', vs⟩ := e
    by_cases hk : k' = k
    · subst hk
      right
      simp [findVal]
    · rcases ih k with h | h
      · left; simpa [findVal, hk] using h
      · right
        simp only [findVal, hk, if_false, List.mem_cons]
        right
        simpa [findVal, hk] using h

theorem mem_keepMulti {κ : Type} (d : List (κ × List Path)) (k : κ)
    (vs : List Path) (h : (k, vs) ∈ d) (hlen : 1 < vs.length) :
    (k, vs) ∈ keepMulti d := by
  simp only [keepMulti, List.mem_filter]
  exact ⟨h, by simpa using hlen⟩

theorem keepMulti_length {κ : Type} (d : List (κ × List Path)) (k : κ)
    (vs : List Path) (h : (k, vs) ∈ keepMulti d) : 1 < vs.length := by
  have := (List.mem_filter.1 h).2
  simpa using this

theorem keepMulti_sublist {κ : Type} (d : List (κ × List Path)) :
    (keepMulti d).Sublist d :=
  List.filter_sublist d

theorem dictAppend_flatten_perm {κ : Type} [DecidableEq κ]
    (d : List (κ × List Path)) (k : κ) (v : Path) :
    (((dictAppend d k v).map Prod.snd).flatten).Perm
      (v :: (d.map Prod.snd).flatten) := by
  induction d with
  | nil => simp [dictAppend]
  | cons e rest ih =>
    obtain ⟨k', vs⟩ := e
    by_cases hk : k' = k
    · subst hk
      have h2 : dictAppend ((k', vs) :: rest) k' v = (k', vs ++ [v]) :: rest := by
        simp [dictAppend]
      rw [h2]
      simp only [List.map_cons, List.flatten_cons, List.append_assoc,
        List.singleton_append]
      exact List.perm_middle
    · simp only [dictAppend, if_neg hk, List.map_cons, List.flatten_cons]
      exact (List.Perm.append_left vs ih).trans List.perm_middle

theorem flatten_sublist {α : Type} {l1 l2 : List (List α)}
    (h : l1.Sublist l2) : l1.flatten.Sublist l2.flatten := by
  induction h with
  | slnil => exact List.Sublist.refl _
  | cons a _ ih =>
    simp only [List.flatten_cons]
    exact ih.trans (List.sublist_append_right a _)
  | cons₂ a _ ih =>
    simp only [List.flatten_cons]
    exact List.Sublist.append_left ih a

/-! ## Lemmas: with the flag never raised, the loops compute the pure
recursions -/

theorem sizeLoop_fst (ctx : Ctx) (hflag : ctx.flag = fun _ => false) :
    ∀ (files : List Path) (total i t : Nat) (gs : List (Nat × List Path))
      (evs : Events),
      (sizeLoop ctx total files i t gs evs).1 = pureSize ctx files gs := by
  intro files
  induction files with
  | nil => intro total i t gs evs; simp [sizeLoop, pureSize]
  | cons p rest ih =>
    intro total i t gs evs
    simp only [sizeLoop, hflag, if_false, pureSize]
    cases get_file_size ctx p with
    | none => exact ih _ _ _ _ _
    | some sz => exact ih _ _ _ _ _

theorem group_by_size_fst (ctx : Ctx) (hflag : ctx.flag = fun _ => false)
    (files : List Path) (t : Nat) :
    (group_by_size ctx files t).1 = keepMulti (pureSize ctx files []) := by
  simp [group_by_size, sizeLoop_fst ctx hflag]

theorem hashFiles_fst (ctx : Ctx) (hflag : ctx.flag = fun _ => false) :
    ∀ (fl : List Path) (total processed t : Nat)
      (ds : List (String × List Path)) (evs : Events),
      (hashFiles ctx total fl processed t ds evs).1 = pureHashFiles ctx fl ds := by
  intro fl
  induction fl with
  | nil => intro total processed t ds evs; simp [hashFiles, pureHashFiles]
  | cons p rest ih =>
    intro total processed t ds evs
    simp only [hashFiles, hflag, if_false, pureHashFiles]
    cases calculate_md5 ctx p with
    | none => exact ih _ _ _ _ _
    | some h => exact ih _ _ _ _ _

theorem hashBuckets_fst (ctx : Ctx) (hflag : ctx.flag = fun _ => false) :
    ∀ (sg : List (Nat × List Path)) (total processed t : Nat)
      (ds : List (String × List Path)) (evs : Events),
      (hashBuckets ctx total sg processed t ds evs).1 =
        pureHashBuckets ctx sg ds := by
  intro sg
  induction sg with
  | nil => intro total processed t ds evs; simp [hashBuckets, pureHashBuckets]
  | cons b rest ih =>
    intro total processed t ds evs
    obtain ⟨sz, fl⟩ := b
    simp only [hashBuckets, hflag, if_false, pureHashBuckets]
    rw [hashFiles_fst ctx hflag]
    · exact ih _ _ _ _ _

theorem find_duplicates_by_hash_fst (ctx : Ctx)
    (hflag : ctx.flag = fun _ => false) (sg : List (Nat × List Path))
    (t : Nat) :
    (find_duplicates_by_hash ctx sg t).1 =
      keepMulti (pureHashBuckets ctx sg []) := by
  simp [find_duplicates_by_hash, hashBuckets_fst ctx hflag]

theorem find_duplicates_fst (ctx : Ctx) (hflag : ctx.flag = fun _ => false)
    (root : RootArg) :
    (find_duplicates ctx root).1 =
      keepMulti (pureHashBuckets ctx
        (keepMulti (pureSize ctx (get_all_files ctx root 0).1 [])) []) := by
  simp only [find_duplicates, hflag, Bool.false_eq_true, if_false]
  rw [group_by_size_fst ctx hflag, find_duplicates_by_hash_fst ctx hflag]

/-! ## Lemmas: where each file lands in the pure stages -/

theorem pureSize_findVal_mono (ctx : Ctx) :
    ∀ (files : List Path) (gs : List (Nat × List Path)) (n : Nat) (p : Path),
      p ∈ findVal gs n → p ∈ findVal (pureSize ctx files gs) n := by
  intro files
  induction files with
  | nil => intro gs n p h; exact h
  | cons q rest ih =>
    intro gs n p h
    simp only [pureSize]
    cases get_file_size ctx q with
    | none => exact ih _ _ _ h
    | some sz => exact ih _ _ _ (mem_findVal_dictAppend _ _ _ _ _ h)

theorem pureSize_findVal_mem (ctx : Ctx) :
    ∀ (files : List Path) (gs : List (Nat × List Path)) (n : Nat) (p : Path),
      p ∈ files → get_file_size ctx p = some n →
      p ∈ findVal (pureSize ctx files gs) n := by
  intro files
  induction files with
  | nil => intro gs n p h; simp at h
  | cons q rest ih =>
    intro gs n p h hsz
    rcases List.mem_cons.1 h with rfl | h2
    · simp only [pureSize, hsz]
      apply pureSize_findVal_mono
      rw [findVal_dictAppend_self]
      simp
    · simp only [pureSize]
      cases get_file_size ctx q with
      | none => exact ih _ _ _ h2 hsz
      | some sz => exact ih _ _ _ h2 hsz

theorem pureHashFiles_findVal_mono (ctx : Ctx) :
    ∀ (fl : List Path) (ds : List (String × List Path)) (h : String)
      (p : Path), p ∈ findVal ds h → p ∈ findVal (pureHashFiles ctx fl ds) h := by
  intro fl
  induction fl with
  | nil => intro ds h p hm; exact hm
  | cons q rest ih =>
    intro ds h p hm
    simp only [pureHashFiles]
    cases calculate_md5 ctx q with
    | none => exact ih _ _ _ hm
    | some h2 => exact ih _ _ _ (mem_findVal_dictAppend _ _ _ _ _ hm)

theorem pureHashFiles_findVal_mem (ctx : Ctx) :
    ∀ (fl : List Path) (ds : List (String × List Path)) (h : String)
      (p : Path), p ∈ fl → calculate_md5 ctx p = some h →
      p ∈ findVal (pureHashFiles ctx fl ds) h := by
  intro fl
  induction fl with
  | nil => intro ds h p hm; simp at hm
  | cons q rest ih =>
    intro ds h p hm hh
    rcases List.mem_cons.1 hm with rfl | h2
    · simp only [pureHashFiles, hh]
      apply pureHashFiles_findVal_mono
      rw [findVal_dictAppend_self]
      simp
    · simp only [pureHashFiles]
      cases calculate_md5 ctx q with
      | none => exact ih _ _ _ h2 hh
      | some h3 => exact ih _ _ _ h2 hh

theorem pureHashBuckets_findVal_mono (ctx : Ctx) :
    ∀ (sg : List (Nat × List Path)) (ds : List (String × List Path))
      (h : String) (p : Path),
      p ∈ findVal ds h → p ∈ findVal (pureHashBuckets ctx sg ds) h := by
  intro sg
  induction sg with
  | nil => intro ds h p hm; exact hm
  | cons b rest ih =>
    intro ds h p hm
    simp only [pureHashBuckets]
    exact ih _ _ _ (pureHashFiles_findVal_mono ctx _ _ _ _ hm)

theorem pureHashBuckets_findVal_mem (ctx : Ctx) :
    ∀ (sg : List (Nat × List Path)) (ds : List (String × List Path))
      (sz : Nat) (fl : List Path) (h : String) (p : Path),
      (sz, fl) ∈ sg → p ∈ fl → calculate_md5 ctx p = some h →
      p ∈ findVal (pureHashBuckets ctx sg ds) h := by
  intro sg
  induction sg with
  | nil => intro ds sz fl h p hb; simp at hb
  | cons b rest ih =>
    intro ds sz fl h p hb hm hh
    rcases List.mem_cons.1 hb with rfl | h2
    · simp only [pureHashBuckets]
      exact pureHashBuckets_findVal_mono ctx _ _ _ _
        (pureHashFiles_findVal_mem ctx _ _ _ _ hm hh)
    · simp only [pureHashBuckets]
      exact ih _ _ _ _ _ h2 hm hh

/-! ## Lemmas: the enumerator -/

theorem filesLoop_acc (ctx : Ctx) (d : Path) :
    ∀ (fns : List String) (t : Nat) (acc : List Path),
      ∃ s, (filesLoop ctx d fns t acc).1 = acc ++ s ∧
        s.Sublist (fns.map (fun fn => ctx.normalize (d ++ [fn]))) ∧
        ∀ p ∈ s, is_hidden_file p = false ∧ (ctx.fs p).isFile = true := by
  intro fns
  induction fns with
  | nil =>
    intro t acc
    exact ⟨[], by simp [filesLoop], by simp, by simp⟩
  | cons fn rest ih =>
    intro t acc
    by_cases hf : ctx.flag t = true
    · refine ⟨[], ?_, by simp, by simp⟩
      simp [filesLoop, hf]
    · have hf2 : ctx.flag t = false := by simpa using hf
      by_cases hh : is_hidden_file (ctx.normalize (d ++ [fn])) = true
      · obtain ⟨s, h1, h2, h3⟩ := ih (t + 1) acc
        refine ⟨s, ?_, h2.trans (List.sublist_cons_self _ _), h3⟩
        simp only [filesLoop, hf2, hh, Bool.false_eq_true, if_false, if_true]
        exact h1
      · have hh2 : is_hidden_file (ctx.normalize (d ++ [fn])) = false := by
          simpa using hh
        by_cases hreg : (ctx.fs (ctx.normalize (d ++ [fn]))).isFile = true
        · obtain ⟨s, h1, h2, h3⟩ := ih (t + 1) (acc ++ [ctx.normalize (d ++ [fn])])
          refine ⟨ctx.normalize (d ++ [fn]) :: s, ?_, ?_, ?_⟩
          · simp only [filesLoop, hf2, hh2, hreg, Bool.false_eq_true, if_false,
              if_true]
            rw [h1, List.append_assoc]
            rfl
          · exact List.Sublist.cons₂ _ h2
          · intro p hp
            rcases List.mem_cons.1 hp with rfl | hp2
            · exact ⟨hh2, hreg⟩
            · exact h3 p hp2
        · have hreg2 : (ctx.fs (ctx.normalize (d ++ [fn]))).isFile = false := by
            simpa using hreg
          obtain ⟨s, h1, h2, h3⟩ := ih (t + 1) acc
          refine ⟨s, ?_, h2.trans (List.sublist_cons_self _ _), h3⟩
          simp only [filesLoop, hf2, hh2, hreg2, Bool.false_eq_true, if_false,
            if_true]
          exact h1

theorem dirsLoop_acc (ctx : Ctx) :
    ∀ (ws : List (Path × List String)) (total processed t : Nat)
      (acc : List Path) (evs : Events),
      ∃ s, (dirsLoop ctx total ws processed t acc evs).1 = acc ++ s ∧
        s.Sublist (allPaths ctx.normalize ws) ∧
        ∀ p ∈ s, is_hidden_file p = false ∧ (ctx.fs p).isFile = true := by
  intro ws
  induction ws with
  | nil =>
    intro total processed t acc evs
    exact ⟨[], by simp [dirsLoop], by simp, by simp⟩
  | cons e rest ih =>
    obtain ⟨d, fns⟩ := e
    intro total processed t acc evs
    by_cases hf : ctx.flag t = true
    · refine ⟨[], ?_, by simp, by simp⟩
      simp [dirsLoop, hf]
    · have hf2 : ctx.flag t = false := by simpa using hf
      obtain ⟨s1, h11, h12, h13⟩ := filesLoop_acc ctx d fns (t + 1) acc
      obtain ⟨s2, h21, h22, h23⟩ := ih total (processed + 1)
        (filesLoop ctx d fns (t + 1) acc).2 (acc ++ s1)
        (evs ++ [((((processed + 1 : ℕ) : ℚ) / (total : ℚ)) * 30,
          "Scanning directory: " ++ renderPath d)])
      refine ⟨s1 ++ s2, ?_, ?_, ?_⟩
      · simp only [dirsLoop, hf2, Bool.false_eq_true, if_false]
        rw [h11, h21, List.append_assoc]
      · have hall : allPaths ctx.normalize ((d, fns) :: rest) =
            fns.map (fun fn => ctx.normalize (d ++ [fn])) ++
              allPaths ctx.normalize rest := by
          simp [allPaths, rawPaths, List.map_map, Function.comp_def]
        rw [hall]
        exact List.Sublist.append h12 h22
      · intro p hp
        rcases List.mem_append.1 hp with hp1 | hp2
        · exact h13 p hp1
        · exact h23 p hp2

theorem get_all_files_shape (ctx : Ctx) (root : RootArg) (t : Nat) :
    (get_all_files ctx root t).1.Sublist (allPaths ctx.normalize (walkRoot root)) ∧
      ∀ p ∈ (get_all_files ctx root t).1,
        is_hidden_file p = false ∧ (ctx.fs p).isFile = true := by
  obtain ⟨s, h1, h2, h3⟩ :=
    dirsLoop_acc ctx (walkRoot root) (walkRoot root).length 0 t [] []
  rw [get_all_files]
  rw [h1]
  simpa using ⟨h2, h3⟩

theorem rawPaths_nodup (w : List (Path × List String)) (h : WalkWF w) :
    (rawPaths w).Nodup := by
  obtain ⟨hdirs, hfiles⟩ := h
  rw [rawPaths, List.nodup_flatten]
  constructor
  · intro l hl
    rcases List.mem_map.1 hl with ⟨e, he, rfl⟩
    refine (hfiles e he).map ?_
    intro a b hab
    simpa using List.append_cancel_left hab
  · rw [List.pairwise_map]
    have hdirs2 : w.Pairwise (fun e1 e2 => e1.1 ≠ e2.1) :=
      (List.pairwise_map).1 hdirs
    refine hdirs2.imp ?_
    intro e1 e2 hne x hx1 hx2
    rcases List.mem_map.1 hx1 with ⟨f1, _, rfl⟩
    rcases List.mem_map.1 hx2 with ⟨f2, _, heq⟩
    exact hne ((List.append_inj' heq (by simp)).1.symm)

/-- A well-formed walk whose entries are not aliased by normalization —
in particular any walk when `normalize` is injective, e.g. involves no
symlinks — offers pairwise-distinct normalized candidate paths. -/
theorem allPaths_nodup (nf : Path → Path) (w : List (Path × List String))
    (h : WalkWF w) (hinj : Function.Injective nf) : (allPaths nf w).Nodup :=
  (rawPaths_nodup w h).map hinj

theorem get_all_files_nodup (ctx : Ctx) (root : RootArg) (t : Nat)
    (h : (allPaths ctx.normalize (walkRoot root)).Nodup) :
    (get_all_files ctx root t).1.Nodup :=
  ((get_all_files_shape ctx root t).1).nodup h

/-! ## Lemmas: distinctness through the bucketing and hashing stages -/

theorem sizeLoop_flatten_nodup (ctx : Ctx) :
    ∀ (files : List Path) (total i t : Nat) (gs : List (Nat × List Path))
      (evs : Events),
      (files ++ (gs.map Prod.snd).flatten).Nodup →
      (((sizeLoop ctx total files i t gs evs).1.map Prod.snd).flatten).Nodup := by
  intro files
  induction files with
  | nil =>
    intro total i t gs evs h
    simpa [sizeLoop] using h
  | cons p rest ih =>
    intro total i t gs evs h
    by_cases hf : ctx.flag t = true
    · simp only [sizeLoop, hf, if_true]
      exact ((List.sublist_append_right (p :: rest) _).nodup h)
    · have hf2 : ctx.flag t = false := by simpa using hf
      simp only [sizeLoop, hf2, Bool.false_eq_true, if_false]
      cases hsz : get_file_size ctx p with
      | none =>
        exact ih _ _ _ _ _ (((List.sublist_cons_self p rest).append_right _).nodup h)
      | some sz =>
        apply ih
        have hperm : (rest ++ ((dictAppend gs sz p).map Prod.snd).flatten).Perm
            (p :: (rest ++ (gs.map Prod.snd).flatten)) :=
          ((dictAppend_flatten_perm gs sz p).append_left rest).trans
            List.perm_middle
        exact hperm.symm.nodup h

theorem hashFiles_flatten_nodup (ctx : Ctx) :
    ∀ (fl ctxt : List Path) (total processed t : Nat)
      (ds : List (String × List Path)) (evs : Events),
      ((fl ++ ctxt) ++ (ds.map Prod.snd).flatten).Nodup →
      ((ctxt ++
        (((hashFiles ctx total fl processed t ds evs).1.map Prod.snd).flatten))).Nodup := by
  intro fl
  induction fl with
  | nil =>
    intro ctxt total processed t ds evs h
    simpa [hashFiles] using h
  | cons p rest ih =>
    intro ctxt total processed t ds evs h
    by_cases hf : ctx.flag t = true
    · simp only [hashFiles, hf, if_true]
      refine List.Sublist.nodup ?_ h
      rw [List.append_assoc]
      exact List.sublist_append_right (p :: rest) _
    · have hf2 : ctx.flag t = false := by simpa using hf
      simp only [hashFiles, hf2, Bool.false_eq_true, if_false]
      cases hh : calculate_md5 ctx p with
      | none =>
        refine ih _ _ _ _ _ _ ?_
        exact (((List.sublist_cons_self p rest).append_right _).append_right _).nodup h
      | some hv =>
        refine ih _ _ _ _ _ _ ?_
        have hperm : ((rest ++ ctxt) ++
            ((dictAppend ds hv p).map Prod.snd).flatten).Perm
            (p :: ((rest ++ ctxt) ++ (ds.map Prod.snd).flatten)) :=
          ((dictAppend_flatten_perm ds hv p).append_left (rest ++ ctxt)).trans
            List.perm_middle
        exact hperm.symm.nodup h

theorem hashBuckets_flatten_nodup (ctx : Ctx) :
    ∀ (sg : List (Nat × List Path)) (total processed t : Nat)
      (ds : List (String × List Path)) (evs : Events),
      ((sg.map Prod.snd).flatten ++ (ds.map Prod.snd).flatten).Nodup →
      (((hashBuckets ctx total sg processed t ds evs).1.map Prod.snd).flatten).Nodup := by
  intro sg
  induction sg with
  | nil =>
    intro total processed t ds evs h
    simpa [hashBuckets] using h
  | cons b rest ih =>
    obtain ⟨sz, fl⟩ := b
    intro total processed t ds evs h
    by_cases hf : ctx.flag t = true
    · simp only [hashBuckets, hf, if_true]
      exact (List.sublist_append_right _ _).nodup h
    · have hf2 : ctx.flag t = false := by simpa using hf
      simp only [hashBuckets, hf2, Bool.false_eq_true, if_false]
      apply ih
      refine hashFiles_flatten_nodup ctx fl ((rest.map Prod.snd).flatten)
        total processed (t + 1) ds evs ?_
      simpa using h

/-! ## Lemmas: group members come from the stage's input -/

theorem mem_flatten_dictAppend {κ : Type} [DecidableEq κ]
    (d : List (κ × List Path)) (k : κ) (v p : Path)
    (h : p ∈ ((dictAppend d k v).map Prod.snd).flatten) :
    p = v ∨ p ∈ (d.map Prod.snd).flatten := by
  have := (dictAppend_flatten_perm d k v).mem_iff.1 h
  simpa using this

theorem sizeLoop_flatten_mem (ctx : Ctx) :
    ∀ (files : List Path) (total i t : Nat) (gs : List (Nat × List Path))
      (evs : Events) (p : Path),
      p ∈ (((sizeLoop ctx total files i t gs evs).1.map Prod.snd).flatten) →
      p ∈ (gs.map Prod.snd).flatten ∨ p ∈ files := by
  intro files
  induction files with
  | nil =>
    intro total i t gs evs p h
    left
    simpa [sizeLoop] using h
  | cons q rest ih =>
    intro total i t gs evs p h
    by_cases hf : ctx.flag t = true
    · left
      simpa [sizeLoop, hf] using h
    · have hf2 : ctx.flag t = false := by simpa using hf
      simp only [sizeLoop, hf2, Bool.false_eq_true, if_false] at h
      cases hsz : get_file_size ctx q with
      | none =>
        rw [hsz] at h
        rcases ih _ _ _ _ _ _ h with h2 | h2
        · exact Or.inl h2
        · exact Or.inr (List.mem_cons_of_mem _ h2)
      | some sz =>
        rw [hsz] at h
        rcases ih _ _ _ _ _ _ h with h2 | h2
        · rcases mem_flatten_dictAppend _ _ _ _ h2 with rfl | h3
          · exact Or.inr (List.mem_cons_self _ _)
          · exact Or.inl h3
        · exact Or.inr (List.mem_cons_of_mem _ h2)

theorem hashFiles_flatten_mem (ctx : Ctx) :
    ∀ (fl : List Path) (total processed t : Nat)
      (ds : List (String × List Path)) (evs : Events) (p : Path),
      p ∈ (((hashFiles ctx total fl processed t ds evs).1.map Prod.snd).flatten) →
      p ∈ (ds.map Prod.snd).flatten ∨ p ∈ fl := by
  intro fl
  induction fl with
  | nil =>
    intro total processed t ds evs p h
    left
    simpa [hashFiles] using h
  | cons q rest ih =>
    intro total processed t ds evs p h
    by_cases hf : ctx.flag t = true
    · left
      simpa [hashFiles, hf] using h
    · have hf2 : ctx.flag t = false := by simpa using hf
      simp only [hashFiles, hf2, Bool.false_eq_true, if_false] at h
      cases hh : calculate_md5 ctx q with
      | none =>
        rw [hh] at h
        rcases ih _ _ _ _ _ _ h with h2 | h2
        · exact Or.inl h2
        · exact Or.inr (List.mem_cons_of_mem _ h2)
      | some hv =>
        rw [hh] at h
        rcases ih _ _ _ _ _ _ h with h2 | h2
        · rcases mem_flatten_dictAppend _ _ _ _ h2 with rfl | h3
          · exact Or.inr (List.mem_cons_self _ _)
          · exact Or.inl h3
        · exact Or.inr (List.mem_cons_of_mem _ h2)

theorem hashBuckets_flatten_mem (ctx : Ctx) :
    ∀ (sg : List (Nat × List Path)) (total processed t : Nat)
      (ds : List (String × List Path)) (evs : Events) (p : Path),
      p ∈ (((hashBuckets ctx total sg processed t ds evs).1.map Prod.snd).flatten) →
      p ∈ (ds.map Prod.snd).flatten ∨ p ∈ ((sg.map Prod.snd).flatten) := by
  intro sg
  induction sg with
  | nil =>
    intro total processed t ds evs p h
    left
    simpa [hashBuckets] using h
  | cons b rest ih =>
    obtain ⟨sz, fl⟩ := b
    intro total processed t ds evs p h
    by_cases hf : ctx.flag t = true
    · left
      simpa [hashBuckets, hf] using h
    · have hf2 : ctx.flag t = false := by simpa using hf
      simp only [hashBuckets, hf2, Bool.false_eq_true, if_false] at h
      rcases ih _ _ _ _ _ _ h with h2 | h2
      · rcases hashFiles_flatten_mem ctx _ _ _ _ _ _ _ h2 with h3 | h3
        · exact Or.inl h3
        · right
          simp only [List.map_cons, List.flatten_cons, List.mem_append]
          exact Or.inl h3
      · right
        simp only [List.map_cons, List.flatten_cons, List.mem_append]
        exact Or.inr h2

theorem keepMulti_flatten_sublist {κ : Type} (d : List (κ × List Path)) :
    (((keepMulti d).map Prod.snd).flatten).Sublist ((d.map Prod.snd).flatten) :=
  flatten_sublist ((keepMulti_sublist d).map Prod.snd)

/-- A path in a group of `find_duplicates_by_hash` comes from some input
bucket. -/
theorem find_duplicates_by_hash_flatten_mem (ctx : Ctx)
    (sg : List (Nat × List Path)) (t : Nat) (p : Path)
    (h : p ∈ (((find_duplicates_by_hash ctx sg t).1.map Prod.snd).flatten)) :
    p ∈ ((sg.map Prod.snd).flatten) := by
  rw [find_duplicates_by_hash] at h
  have h2 := (keepMulti_flatten_sublist _).subset h
  rcases hashBuckets_flatten_mem ctx _ _ _ _ _ _ _ h2 with h3 | h3
  · simp at h3
  · exact h3

/-- A path in a bucket of `group_by_size` comes from the input file list. -/
theorem group_by_size_flatten_mem (ctx : Ctx) (files : List Path) (t : Nat)
    (p : Path)
    (h : p ∈ (((group_by_size ctx files t).1.map Prod.snd).flatten)) :
    p ∈ files := by
  rw [group_by_size] at h
  have h2 := (keepMulti_flatten_sublist _).subset h
  rcases sizeLoop_flatten_mem ctx _ _ _ _ _ _ _ h2 with h3 | h3
  · simp at h3
  · exact h3

/-- Every path in a group of the final mapping was enumerated. -/
theorem find_duplicates_flatten_mem (ctx : Ctx) (root : RootArg) (p : Path)
    (h : p ∈ (((find_duplicates ctx root).1.map Prod.snd).flatten)) :
    p ∈ (get_all_files ctx root 0).1 := by
  rw [find_duplicates] at h
  by_cases h1 : ctx.flag (get_all_files ctx root 0).2.1 = true
  · simp [h1] at h
  · have h1' : ctx.flag (get_all_files ctx root 0).2.1 = false := by simpa using h1
    rw [h1'] at h
    simp only [Bool.false_eq_true, if_false] at h
    by_cases h2 : ctx.flag (group_by_size ctx (get_all_files ctx root 0).1
        ((get_all_files ctx root 0).2.1 + 1)).2.1 = true
    · simp [h2] at h
    · have h2' : ctx.flag (group_by_size ctx (get_all_files ctx root 0).1
          ((get_all_files ctx root 0).2.1 + 1)).2.1 = false := by simpa using h2
      rw [h2'] at h
      simp only [Bool.false_eq_true, if_false] at h
      exact group_by_size_flatten_mem ctx _ _ _
        (find_duplicates_by_hash_flatten_mem ctx _ _ _ h)

/-! ## Lemmas: inaccessible files are exactly omitted (C8 support) -/

theorem pureSize_filter (ctx : Ctx) :
    ∀ (files : List Path) (gs : List (Nat × List Path)),
      pureSize ctx files gs =
        pureSize ctx (files.filter (fun p => (get_file_size ctx p).isSome)) gs := by
  intro files
  induction files with
  | nil => intro gs; rfl
  | cons p rest ih =>
    intro gs
    cases hsz : get_file_size ctx p with
    | none =>
      rw [List.filter_cons]
      simp only [hsz, Option.isSome_none, Bool.false_eq_true, if_false]
      simp only [pureSize, hsz]
      exact ih gs
    | some sz =>
      rw [List.filter_cons]
      simp only [hsz, Option.isSome_some, if_true]
      simp only [pureSize, hsz]
      exact ih _

theorem pureHashFiles_filter (ctx : Ctx) :
    ∀ (fl : List Path) (ds : List (String × List Path)),
      pureHashFiles ctx fl ds =
        pureHashFiles ctx (fl.filter (fun p => (calculate_md5 ctx p).isSome)) ds := by
  intro fl
  induction fl with
  | nil => intro ds; rfl
  | cons p rest ih =>
    intro ds
    cases hh : calculate_md5 ctx p with
    | none =>
      rw [List.filter_cons]
      simp only [hh, Option.isSome_none, Bool.false_eq_true, if_false]
      simp only [pureHashFiles, hh]
      exact ih ds
    | some hv =>
      rw [List.filter_cons]
      simp only [hh, Option.isSome_some, if_true]
      simp only [pureHashFiles, hh]
      exact ih _

theorem pureHashBuckets_filter (ctx : Ctx) :
    ∀ (sg : List (Nat × List Path)) (ds : List (String × List Path)),
      pureHashBuckets ctx sg ds =
        pureHashBuckets ctx
          (sg.map (fun b =>
            (b.1, b.2.filter (fun p => (calculate_md5 ctx p).isSome)))) ds := by
  intro sg
  induction sg with
  | nil => intro ds; rfl
  | cons b rest ih =>
    intro ds
    simp only [List.map_cons, pureHashBuckets]
    rw [← pureHashFiles_filter]
    exact ih _

theorem pureSize_not_mem (ctx : Ctx) (p : Path)
    (hsz : get_file_size ctx p = none) :
    ∀ (files : List Path) (gs : List (Nat × List Path)),
      p ∉ (gs.map Prod.snd).flatten →
      p ∉ ((pureSize ctx files gs).map Prod.snd).flatten := by
  intro files
  induction files with
  | nil => intro gs h; exact h
  | cons q rest ih =>
    intro gs h
    simp only [pureSize]
    cases hq : get_file_size ctx q with
    | none => exact ih _ h
    | some sz =>
      refine ih _ ?_
      intro hmem
      rcases mem_flatten_dictAppend _ _ _ _ hmem with rfl | h2
      · rw [hq] at hsz
        exact Option.noConfusion hsz
      · exact h h2

theorem pureHashFiles_not_mem (ctx : Ctx) (p : Path)
    (hh : calculate_md5 ctx p = none) :
    ∀ (fl : List Path) (ds : List (String × List Path)),
      p ∉ (ds.map Prod.snd).flatten →
      p ∉ ((pureHashFiles ctx fl ds).map Prod.snd).flatten := by
  intro fl
  induction fl with
  | nil => intro ds h; exact h
  | cons q rest ih =>
    intro ds h
    simp only [pureHashFiles]
    cases hq : calculate_md5 ctx q with
    | none => exact ih _ h
    | some hv =>
      refine ih _ ?_
      intro hmem
      rcases mem_flatten_dictAppend _ _ _ _ hmem with rfl | h2
      · rw [hq] at hh
        exact Option.noConfusion hh
      · exact h h2

theorem pureHashBuckets_not_mem (ctx : Ctx) (p : Path)
    (hh : calculate_md5 ctx p = none) :
    ∀ (sg : List (Nat × List Path)) (ds : List (String × List Path)),
      p ∉ (ds.map Prod.snd).flatten →
      p ∉ ((pureHashBuckets ctx sg ds).map Prod.snd).flatten := by
  intro sg
  induction sg with
  | nil => intro ds h; exact h
  | cons b rest ih =>
    intro ds h
    simp only [pureHashBuckets]
    exact ih _ (pureHashFiles_not_mem ctx p hh _ _ h)

/-! ## Lemmas: progress percent arithmetic -/

theorem enumPct_nonneg (total j : Nat) : 0 ≤ enumPct total j := by
  unfold enumPct
  positivity

theorem enumPct_le_30 (total j : Nat) (h : j + 1 ≤ total) :
    enumPct total j ≤ 30 := by
  unfold enumPct
  have ht : (0 : ℚ) < (total : ℚ) := by
    have : 0 < total := by omega
    exact_mod_cast this
  have h1 : ((j + 1 : Nat) : ℚ) / (total : ℚ) ≤ 1 := by
    rw [div_le_one ht]
    exact_mod_cast h
  calc ((j + 1 : Nat) : ℚ) / (total : ℚ) * 30 ≤ 1 * 30 := by
        exact mul_le_mul_of_nonneg_right h1 (by norm_num)
    _ = 30 := one_mul 30

theorem enumPct_mono (total : Nat) {j k : Nat} (h : j ≤ k) :
    enumPct total j ≤ enumPct total k := by
  unfold enumPct
  rcases Nat.eq_zero_or_pos total with h0 | h0
  · subst h0
    norm_num
  · have ht : (0 : ℚ) < (total : ℚ) := by exact_mod_cast h0
    have h1 : ((j + 1 : Nat) : ℚ) ≤ ((k + 1 : Nat) : ℚ) := by
      exact_mod_cast Nat.add_le_add_right h 1
    gcongr

theorem sizePct_ge_30 (total j : Nat) : 30 ≤ sizePct total j := by
  unfold sizePct
  have : (0 : ℚ) ≤ ((j : Nat) : ℚ) / (total : ℚ) * 30 := by positivity
  linarith

theorem sizePct_le_60 (total j : Nat) (h : j ≤ total) :
    sizePct total j ≤ 60 := by
  unfold sizePct
  rcases Nat.eq_zero_or_pos total with h0 | h0
  · subst h0
    norm_num
  · have ht : (0 : ℚ) < (total : ℚ) := by exact_mod_cast h0
    have h1 : ((j : Nat) : ℚ) / (total : ℚ) ≤ 1 := by
      rw [div_le_one ht]
      exact_mod_cast h
    have h2 : ((j : Nat) : ℚ) / (total : ℚ) * 30 ≤ 30 := by
      calc ((j : Nat) : ℚ) / (total : ℚ) * 30 ≤ 1 * 30 :=
            mul_le_mul_of_nonneg_right h1 (by norm_num)
        _ = 30 := one_mul 30
    linarith

theorem sizePct_mono (total : Nat) {j k : Nat} (h : j ≤ k) :
    sizePct total j ≤ sizePct total k := by
  unfold sizePct
  rcases Nat.eq_zero_or_pos total with h0 | h0
  · subst h0
    norm_num
  · have ht : (0 : ℚ) < (total : ℚ) := by exact_mod_cast h0
    have h1 : ((j : Nat) : ℚ) ≤ ((k : Nat) : ℚ) := by exact_mod_cast h
    gcongr

theorem hashPct_ge_60 (total j : Nat) : 60 ≤ hashPct total j := by
  unfold hashPct
  have : (0 : ℚ) ≤ ((j + 1 : Nat) : ℚ) / (total : ℚ) * 40 := by positivity
  linarith

theorem hashPct_le_100 (total j : Nat) (h : j + 1 ≤ total) :
    hashPct total j ≤ 100 := by
  unfold hashPct
  have ht : (0 : ℚ) < (total : ℚ) := by
    have : 0 < total := by omega
    exact_mod_cast this
  have h1 : ((j + 1 : Nat) : ℚ) / (total : ℚ) ≤ 1 := by
    rw [div_le_one ht]
    exact_mod_cast h
  have h2 : ((j + 1 : Nat) : ℚ) / (total : ℚ) * 40 ≤ 40 := by
    calc ((j + 1 : Nat) : ℚ) / (total : ℚ) * 40 ≤ 1 * 40 :=
          mul_le_mul_of_nonneg_right h1 (by norm_num)
      _ = 40 := one_mul 40
  linarith

theorem hashPct_mono (total : Nat) {j k : Nat} (h : j ≤ k) :
    hashPct total j ≤ hashPct total k := by
  unfold hashPct
  rcases Nat.eq_zero_or_pos total with h0 | h0
  · subst h0
    norm_num
  · have ht : (0 : ℚ) < (total : ℚ) := by exact_mod_cast h0
    have h1 : ((j + 1 : Nat) : ℚ) ≤ ((k + 1 : Nat) : ℚ) := by
      exact_mod_cast Nat.add_le_add_right h 1
    gcongr

/-! ## Lemmas: every stage reports only inside its allocated range -/

theorem dirsLoop_events_bound (ctx : Ctx) :
    ∀ (ws : List (Path × List String)) (total processed t : Nat)
      (acc : List Path) (evs : Events) (ev : ℚ × String),
      processed + ws.length ≤ total →
      ev ∈ (dirsLoop ctx total ws processed t acc evs).2.2 →
      ev ∈ evs ∨ (0 ≤ ev.1 ∧ ev.1 ≤ 30) := by
  intro ws
  induction ws with
  | nil =>
    intro total processed t acc evs ev _ h
    left
    simpa [dirsLoop] using h
  | cons e rest ih =>
    obtain ⟨d, fns⟩ := e
    intro total processed t acc evs ev hle h
    by_cases hf : ctx.flag t = true
    · left
      simpa [dirsLoop, hf] using h
    · have hf2 : ctx.flag t = false := by simpa using hf
      simp only [dirsLoop, hf2, Bool.false_eq_true, if_false] at h
      rcases ih _ _ _ _ _ _ (by simp at hle; omega) h with h2 | h2
      · rcases List.mem_append.1 h2 with h3 | h3
        · exact Or.inl h3
        · right
          simp only [List.mem_singleton] at h3
          subst h3
          have hpe : ((((processed + 1 : Nat) : ℚ)) / (total : ℚ)) * 30 =
              enumPct total processed := rfl
          constructor
          · rw [hpe]
            exact enumPct_nonneg total processed
          · rw [hpe]
            refine enumPct_le_30 total processed ?_
            simp only [List.length_cons] at hle
            omega
      · exact Or.inr h2

theorem get_all_files_events_bound (ctx : Ctx) (root : RootArg) (t : Nat)
    (ev : ℚ × String) (h : ev ∈ (get_all_files ctx root t).2.2) :
    0 ≤ ev.1 ∧ ev.1 ≤ 30 := by
  rcases dirsLoop_events_bound ctx (walkRoot root) (walkRoot root).length 0 t
    [] [] ev (by omega) h with h2 | h2
  · simp at h2
  · exact h2

theorem sizeLoop_events_bound (ctx : Ctx) :
    ∀ (files : List Path) (total i t : Nat) (gs : List (Nat × List Path))
      (evs : Events) (ev : ℚ × String),
      i + files.length ≤ total →
      ev ∈ (sizeLoop ctx total files i t gs evs).2.2 →
      ev ∈ evs ∨ (30 ≤ ev.1 ∧ ev.1 ≤ 60) := by
  intro files
  induction files with
  | nil =>
    intro total i t gs evs ev _ h
    left
    simpa [sizeLoop] using h
  | cons p rest ih =>
    intro total i t gs evs ev hle h
    by_cases hf : ctx.flag t = true
    · left
      simpa [sizeLoop, hf] using h
    · have hf2 : ctx.flag t = false := by simpa using hf
      simp only [sizeLoop, hf2, Bool.false_eq_true, if_false] at h
      have h' : ev ∈ (sizeLoop ctx total rest (i + 1) (t + 1)
          (match get_file_size ctx p with
            | none => gs
            | some sz => dictAppend gs sz p)
          (evs ++ [((30 : ℚ) + (((i : Nat) : ℚ) / (total : ℚ)) * 30,
            "Analyzing file sizes: " ++ basename p)])).2.2 := by
        cases hsz : get_file_size ctx p with
        | none => rw [hsz] at h; exact h
        | some sz => rw [hsz] at h; exact h
      rcases ih _ _ _ _ _ _ (by simp at hle; omega) h' with h2 | h2
      · rcases List.mem_append.1 h2 with h3 | h3
        · exact Or.inl h3
        · right
          simp only [List.mem_singleton] at h3
          subst h3
          have hpe : (30 : ℚ) + (((i : Nat) : ℚ) / (total : ℚ)) * 30 =
              sizePct total i := rfl
          constructor
          · rw [hpe]
            exact sizePct_ge_30 total i
          · rw [hpe]
            refine sizePct_le_60 total i ?_
            simp only [List.length_cons] at hle
            omega
      · exact Or.inr h2

theorem group_by_size_events_bound (ctx : Ctx) (files : List Path) (t : Nat)
    (ev : ℚ × String) (h : ev ∈ (group_by_size ctx files t).2.2) :
    30 ≤ ev.1 ∧ ev.1 ≤ 60 := by
  rcases sizeLoop_events_bound ctx files files.length 0 t [] [] ev (by omega)
    h with h2 | h2
  · simp at h2
  · exact h2

theorem hashFiles_events_bound (ctx : Ctx) :
    ∀ (fl : List Path) (total processed t : Nat)
      (ds : List (String × List Path)) (evs : Events) (ev : ℚ × String),
      processed + fl.length ≤ total →
      ev ∈ (hashFiles ctx total fl processed t ds evs).2.2.2 →
      ev ∈ evs ∨ (60 ≤ ev.1 ∧ ev.1 ≤ 100) := by
  intro fl
  induction fl with
  | nil =>
    intro total processed t ds evs ev _ h
    left
    simpa [hashFiles] using h
  | cons p rest ih =>
    intro total processed t ds evs ev hle h
    by_cases hf : ctx.flag t = true
    · left
      simpa [hashFiles, hf] using h
    · have hf2 : ctx.flag t = false := by simpa using hf
      simp only [hashFiles, hf2, Bool.false_eq_true, if_false] at h
      have h' : ev ∈ (hashFiles ctx total rest (processed + 1) (t + 1)
          (match calculate_md5 ctx p with
            | none => ds
            | some hv => dictAppend ds hv p)
          (evs ++ [((60 : ℚ) + ((((processed + 1 : Nat)) : ℚ) / (total : ℚ)) * 40,
            "Calculating hash: " ++ basename p)])).2.2.2 := by
        cases hh : calculate_md5 ctx p with
        | none => rw [hh] at h; exact h
        | some hv => rw [hh] at h; exact h
      rcases ih _ _ _ _ _ _ (by simp at hle; omega) h' with h2 | h2
      · rcases List.mem_append.1 h2 with h3 | h3
        · exact Or.inl h3
        · right
          simp only [List.mem_singleton] at h3
          subst h3
          have hpe : (60 : ℚ) + ((((processed + 1 : Nat)) : ℚ) / (total : ℚ)) * 40 =
              hashPct total processed := rfl
          constructor
          · rw [hpe]
            exact hashPct_ge_60 total processed
          · rw [hpe]
            refine hashPct_le_100 total processed ?_
            simp only [List.length_cons] at hle
            omega
      · exact Or.inr h2

theorem hashFiles_processed_le (ctx : Ctx) :
    ∀ (fl : List Path) (total processed t : Nat)
      (ds : List (String × List Path)) (evs : Events),
      (hashFiles ctx total fl processed t ds evs).2.1 ≤ processed + fl.length := by
  intro fl
  induction fl with
  | nil =>
    intro total processed t ds evs
    simp [hashFiles]
  | cons p rest ih =>
    intro total processed t ds evs
    by_cases hf : ctx.flag t = true
    · simp [hashFiles, hf]
    · have hf2 : ctx.flag t = false := by simpa using hf
      simp only [hashFiles, hf2, Bool.false_eq_true, if_false]
      cases hh : calculate_md5 ctx p with
      | none =>
        have := ih total (processed + 1) (t + 1) ds
          (evs ++ [((60 : ℚ) + ((((processed + 1 : Nat)) : ℚ) / (total : ℚ)) * 40,
            "Calculating hash: " ++ basename p)])
        simp only [List.length_cons]
        omega
      | some hv =>
        have := ih total (processed + 1) (t + 1) (dictAppend ds hv p)
          (evs ++ [((60 : ℚ) + ((((processed + 1 : Nat)) : ℚ) / (total : ℚ)) * 40,
            "Calculating hash: " ++ basename p)])
        simp only [List.length_cons]
        omega

theorem hashBuckets_events_bound (ctx : Ctx) :
    ∀ (sg : List (Nat × List Path)) (total processed t : Nat)
      (ds : List (String × List Path)) (evs : Events) (ev : ℚ × String),
      processed + sumLen sg ≤ total →
      ev ∈ (hashBuckets ctx total sg processed t ds evs).2.2 →
      ev ∈ evs ∨ (60 ≤ ev.1 ∧ ev.1 ≤ 100) := by
  intro sg
  induction sg with
  | nil =>
    intro total processed t ds evs ev _ h
    left
    simpa [hashBuckets] using h
  | cons b rest ih =>
    obtain ⟨sz, fl⟩ := b
    intro total processed t ds evs ev hle h
    by_cases hf : ctx.flag t = true
    · left
      simpa [hashBuckets, hf] using h
    · have hf2 : ctx.flag t = false := by simpa using hf
      simp only [hashBuckets, hf2, Bool.false_eq_true, if_false] at h
      have hsum : sumLen ((sz, fl) :: rest) = fl.length + sumLen rest := by
        simp [sumLen]
      have hp2 := hashFiles_processed_le ctx fl total processed (t + 1) ds evs
      rcases ih _ _ _ _ _ _ (by omega) h with h2 | h2
      · exact hashFiles_events_bound ctx fl total processed (t + 1) ds evs ev
          (by omega) h2
      · exact Or.inr h2

theorem find_duplicates_by_hash_events_bound (ctx : Ctx)
    (sg : List (Nat × List Path)) (t : Nat) (ev : ℚ × String)
    (h : ev ∈ (find_duplicates_by_hash ctx sg t).2.2) :
    60 ≤ ev.1 ∧ ev.1 ≤ 100 := by
  rcases hashBuckets_events_bound ctx sg (sumLen sg) 0 t [] [] ev (by omega)
    h with h2 | h2
  · simp at h2
  · exact h2

/-! ## Lemmas: the exact percent sequence of an uncancelled scan -/

theorem dirsLoop_events_fst (ctx : Ctx) (hflag : ctx.flag = fun _ => false) :
    ∀ (ws : List (Path × List String)) (total processed t : Nat)
      (acc : List Path) (evs : Events),
      ((dirsLoop ctx total ws processed t acc evs).2.2).map Prod.fst =
        evs.map Prod.fst ++
          (List.range ws.length).map (fun j => enumPct total (processed + j)) := by
  intro ws
  induction ws with
  | nil =>
    intro total processed t acc evs
    simp [dirsLoop]
  | cons e rest ih =>
    obtain ⟨d, fns⟩ := e
    intro total processed t acc evs
    simp only [dirsLoop, hflag, Bool.false_eq_true, if_false]
    rw [ih]
    simp only [List.map_append, List.map_cons, List.map_nil, List.length_cons,
      List.range_succ_eq_map, List.map_map, List.append_assoc,
      List.singleton_append]
    congr 1
    congr 1
    apply List.map_congr_left
    intro j _
    show enumPct total (processed + 1 + j) = enumPct total (processed + (j + 1))
    have h2 : processed + 1 + j = processed + (j + 1) := by omega
    rw [h2]

theorem get_all_files_events_fst (ctx : Ctx)
    (hflag : ctx.flag = fun _ => false) (root : RootArg) (t : Nat) :
    ((get_all_files ctx root t).2.2).map Prod.fst =
      (List.range (walkRoot root).length).map
        (fun j => enumPct (walkRoot root).length j) := by
  rw [get_all_files]
  rw [dirsLoop_events_fst ctx hflag]
  simp only [List.map_nil, List.nil_append]
  apply List.map_congr_left
  intro j _
  have h2 : 0 + j = j := by omega
  rw [h2]

theorem sizeLoop_events_fst (ctx : Ctx) (hflag : ctx.flag = fun _ => false) :
    ∀ (files : List Path) (total i t : Nat) (gs : List (Nat × List Path))
      (evs : Events),
      ((sizeLoop ctx total files i t gs evs).2.2).map Prod.fst =
        evs.map Prod.fst ++
          (List.range files.length).map (fun j => sizePct total (i + j)) := by
  intro files
  induction files with
  | nil =>
    intro total i t gs evs
    simp [sizeLoop]
  | cons p rest ih =>
    intro total i t gs evs
    simp only [sizeLoop, hflag, Bool.false_eq_true, if_false]
    have hstep :
        (match get_file_size ctx p with
          | none => sizeLoop ctx total rest (i + 1) (t + 1) gs
              (evs ++ [((30 : ℚ) + (((i : Nat) : ℚ) / (total : ℚ)) * 30,
                "Analyzing file sizes: " ++ basename p)])
          | some sz => sizeLoop ctx total rest (i + 1) (t + 1) (dictAppend gs sz p)
              (evs ++ [((30 : ℚ) + (((i : Nat) : ℚ) / (total : ℚ)) * 30,
                "Analyzing file sizes: " ++ basename p)])).2.2.map Prod.fst =
          (evs ++ [((30 : ℚ) + (((i : Nat) : ℚ) / (total : ℚ)) * 30,
            "Analyzing file sizes: " ++ basename p)]).map Prod.fst ++
          (List.range rest.length).map (fun j => sizePct total (i + 1 + j)) := by
      cases hsz : get_file_size ctx p with
      | none => exact ih _ _ _ _ _
      | some sz => exact ih _ _ _ _ _
    rw [hstep]
    simp only [List.map_append, List.map_cons, List.map_nil, List.length_cons,
      List.range_succ_eq_map, List.map_map, List.append_assoc,
      List.singleton_append]
    congr 1
    congr 1
    apply List.map_congr_left
    intro j _
    show sizePct total (i + 1 + j) = sizePct total (i + (j + 1))
    have h2 : i + 1 + j = i + (j + 1) := by omega
    rw [h2]

theorem group_by_size_events_fst (ctx : Ctx)
    (hflag : ctx.flag = fun _ => false) (files : List Path) (t : Nat) :
    ((group_by_size ctx files t).2.2).map Prod.fst =
      (List.range files.length).map (fun j => sizePct files.length j) := by
  rw [group_by_size]
  rw [sizeLoop_events_fst ctx hflag]
  simp only [List.map_nil, List.nil_append]
  apply List.map_congr_left
  intro j _
  have h2 : 0 + j = j := by omega
  rw [h2]

theorem hashFiles_processed_fst (ctx : Ctx)
    (hflag : ctx.flag = fun _ => false) :
    ∀ (fl : List Path) (total processed t : Nat)
      (ds : List (String × List Path)) (evs : Events),
      (hashFiles ctx total fl processed t ds evs).2.1 = processed + fl.length := by
  intro fl
  induction fl with
  | nil =>
    intro total processed t ds evs
    simp [hashFiles]
  | cons p rest ih =>
    intro total processed t ds evs
    simp only [hashFiles, hflag, Bool.false_eq_true, if_false]
    have hstep :
        (match calculate_md5 ctx p with
          | none => hashFiles ctx total rest (processed + 1) (t + 1) ds
              (evs ++ [((60 : ℚ) + ((((processed + 1 : Nat)) : ℚ) / (total : ℚ)) * 40,
                "Calculating hash: " ++ basename p)])
          | some hv => hashFiles ctx total rest (processed + 1) (t + 1)
              (dictAppend ds hv p)
              (evs ++ [((60 : ℚ) + ((((processed + 1 : Nat)) : ℚ) / (total : ℚ)) * 40,
                "Calculating hash: " ++ basename p)])).2.1 = processed + 1 + rest.length := by
      cases hh : calculate_md5 ctx p with
      | none => exact ih _ _ _ _ _
      | some hv => exact ih _ _ _ _ _
    rw [hstep]
    simp only [List.length_cons]
    omega

theorem hashFiles_events_fst (ctx : Ctx) (hflag : ctx.flag = fun _ => false) :
    ∀ (fl : List Path) (total processed t : Nat)
      (ds : List (String × List Path)) (evs : Events),
      ((hashFiles ctx total fl processed t ds evs).2.2.2).map Prod.fst =
        evs.map Prod.fst ++
          (List.range fl.length).map (fun j => hashPct total (processed + j)) := by
  intro fl
  induction fl with
  | nil =>
    intro total processed t ds evs
    simp [hashFiles]
  | cons p rest ih =>
    intro total processed t ds evs
    simp only [hashFiles, hflag, Bool.false_eq_true, if_false]
    have hstep :
        (match calculate_md5 ctx p with
          | none => hashFiles ctx total rest (processed + 1) (t + 1) ds
              (evs ++ [((60 : ℚ) + ((((processed + 1 : Nat)) : ℚ) / (total : ℚ)) * 40,
                "Calculating hash: " ++ basename p)])
          | some hv => hashFiles ctx total rest (processed + 1) (t + 1)
              (dictAppend ds hv p)
              (evs ++ [((60 : ℚ) + ((((processed + 1 : Nat)) : ℚ) / (total : ℚ)) * 40,
                "Calculating hash: " ++ basename p)])).2.2.2.map Prod.fst =
          (evs ++ [((60 : ℚ) + ((((processed + 1 : Nat)) : ℚ) / (total : ℚ)) * 40,
            "Calculating hash: " ++ basename p)]).map Prod.fst ++
          (List.range rest.length).map (fun j => hashPct total (processed + 1 + j)) := by
      cases hh : calculate_md5 ctx p with
      | none => exact ih _ _ _ _ _
      | some hv => exact ih _ _ _ _ _
    rw [hstep]
    simp only [List.map_append, List.map_cons, List.map_nil, List.length_cons,
      List.range_succ_eq_map, List.map_map, List.append_assoc,
      List.singleton_append]
    congr 1
    congr 1
    apply List.map_congr_left
    intro j _
    show hashPct total (processed + 1 + j) = hashPct total (processed + (j + 1))
    have h2 : processed + 1 + j = processed + (j + 1) := by omega
    rw [h2]

theorem hashBuckets_events_fst (ctx : Ctx)
    (hflag : ctx.flag = fun _ => false) :
    ∀ (sg : List (Nat × List Path)) (total processed t : Nat)
      (ds : List (String × List Path)) (evs : Events),
      ((hashBuckets ctx total sg processed t ds evs).2.2).map Prod.fst =
        evs.map Prod.fst ++
          (List.range (sumLen sg)).map (fun j => hashPct total (processed + j)) := by
  intro sg
  induction sg with
  | nil =>
    intro total processed t ds evs
    simp [hashBuckets, sumLen]
  | cons b rest ih =>
    obtain ⟨sz, fl⟩ := b
    intro total processed t ds evs
    simp only [hashBuckets, hflag, Bool.false_eq_true, if_false]
    rw [ih]
    rw [hashFiles_processed_fst ctx hflag]
    rw [hashFiles_events_fst ctx hflag]
    have hsum : sumLen ((sz, fl) :: rest) = fl.length + sumLen rest := by
      simp [sumLen]
    rw [hsum, List.range_add, List.map_append, List.map_map,
      List.append_assoc]
    congr 2
    apply List.map_congr_left
    intro j _
    show hashPct total (processed + fl.length + j) =
      hashPct total (processed + (fl.length + j))
    have h2 : processed + fl.length + j = processed + (fl.length + j) := by omega
    rw [h2]

theorem find_duplicates_by_hash_events_fst (ctx : Ctx)
    (hflag : ctx.flag = fun _ => false) (sg : List (Nat × List Path))
    (t : Nat) :
    ((find_duplicates_by_hash ctx sg t).2.2).map Prod.fst =
      (List.range (sumLen sg)).map (fun j => hashPct (sumLen sg) j) := by
  rw [find_duplicates_by_hash]
  rw [hashBuckets_events_fst ctx hflag]
  simp only [List.map_nil, List.nil_append]
  apply List.map_congr_left
  intro j _
  have h2 : 0 + j = j := by omega
  rw [h2]

theorem pairwise_le_map_range (f : Nat → ℚ)
    (hf : ∀ j k, j ≤ k → f j ≤ f k) (n : Nat) :
    ((List.range n).map f).Pairwise (· ≤ ·) := by
  rw [List.pairwise_map]
  exact (List.pairwise_lt_range n).imp (fun h => hf _ _ (le_of_lt h))

theorem pairwise_assemble (pE pS pH : List ℚ)
    (hEp : pE.Pairwise (· ≤ ·)) (hSp : pS.Pairwise (· ≤ ·))
    (hHp : pH.Pairwise (· ≤ ·))
    (hEb : ∀ b ∈ pE, 0 ≤ b ∧ b ≤ 30) (hSb : ∀ b ∈ pS, 30 ≤ b ∧ b ≤ 60)
    (hHb : ∀ b ∈ pH, 60 ≤ b ∧ b ≤ 100) :
    ((0 : ℚ) :: (pE ++ (pS ++ (pH ++ [100])))).Pairwise (· ≤ ·) := by
  rw [List.pairwise_cons]
  constructor
  · intro b hb
    rcases List.mem_append.1 hb with h | h
    · exact (hEb b h).1
    rcases List.mem_append.1 h with h2 | h2
    · linarith [(hSb b h2).1]
    rcases List.mem_append.1 h2 with h3 | h3
    · linarith [(hHb b h3).1]
    · simp only [List.mem_singleton] at h3
      subst h3
      norm_num
  · rw [List.pairwise_append]
    refine ⟨hEp, ?_, ?_⟩
    · rw [List.pairwise_append]
      refine ⟨hSp, ?_, ?_⟩
      · rw [List.pairwise_append]
        refine ⟨hHp, by simp, ?_⟩
        intro x hx y hy
        simp only [List.mem_singleton] at hy
        subst hy
        exact (hHb x hx).2
      · intro x hx y hy
        rcases List.mem_append.1 hy with h | h
        · linarith [(hSb x hx).2, (hHb y h).1]
        · simp only [List.mem_singleton] at h
          subst h
          linarith [(hSb x hx).2]
    · intro x hx y hy
      rcases List.mem_append.1 hy with h | h
      · linarith [(hEb x hx).2, (hSb y h).1]
      rcases List.mem_append.1 h with h2 | h2
      · linarith [(hEb x hx).2, (hHb y h2).1]
      · simp only [List.mem_singleton] at h2
        subst h2
        linarith [(hEb x hx).2]

theorem find_duplicates_percents (ctx : Ctx)
    (hflag : ctx.flag = fun _ => false) (root : RootArg) :
    ((find_duplicates ctx root).2).map Prod.fst =
      0 :: (((get_all_files ctx root 0).2.2).map Prod.fst ++
        (((group_by_size ctx (get_all_files ctx root 0).1
            ((get_all_files ctx root 0).2.1 + 1)).2.2).map Prod.fst ++
          (((find_duplicates_by_hash ctx
              (group_by_size ctx (get_all_files ctx root 0).1
                ((get_all_files ctx root 0).2.1 + 1)).1
              ((group_by_size ctx (get_all_files ctx root 0).1
                ((get_all_files ctx root 0).2.1 + 1)).2.1 + 1)).2.2).map Prod.fst ++
            [100]))) := by
  simp only [find_duplicates, hflag, Bool.false_eq_true, if_false,
    List.map_append, List.map_cons, List.map_nil, List.cons_append,
    List.nil_append, List.append_assoc]

theorem one_lt_length_of_two_mem {α : Type} {l : List α} {a b : α}
    (ha : a ∈ l) (hb : b ∈ l) (hne : a ≠ b) : 1 < l.length := by
  rcases l with _ | ⟨x, _ | ⟨y, ys⟩⟩
  · simp at ha
  · simp only [List.mem_singleton] at ha hb
    exact absurd (ha.trans hb.symm) hne
  · simp only [List.length_cons]
    omega

/-! ## The claims -/

/-- C7: for every readable file, `calculate_md5` returns the hex digest of
the 128-bit MD5 hash of the file's complete byte content, computed by
streaming the file in 4096-byte chunks through the digest accumulator, and
the result equals the digest of the concatenation of all chunks: the
streamed digest is `md5hex c` for content `c`, the chunks concatenate back
to `c`, every chunk is nonempty of length at most 4096, and the digest is
a 32-character (128-bit) lowercase-hex string. -/
theorem md5_streaming_spec (ctx : Ctx) (p : Path) (c : List Byte)
    (h : (ctx.fs p).content = some c) :
    calculate_md5 ctx p = some (md5hex c) ∧
    (chunksOf 4096 c).flatten = c ∧
    (∀ ch ∈ chunksOf 4096 c, ch ≠ [] ∧ ch.length ≤ 4096) ∧
    (md5hex c).length = 32 ∧
    (∀ a ∈ (md5hex c).data, a ∈ hexChars) := by
  refine ⟨calculate_md5_eq ctx p c h, chunksOf_flatten 4096 c, ?_, ?_, ?_⟩
  · intro ch hch
    exact chunksOf_mem 4096 (by norm_num) c ch hch
  · exact length_md5hex c
  · intro a ha
    exact md5hex_data_mem c a ha

/-- C7 witness: the "hello" file of the spec scenario. -/
theorem md5_streaming_spec_witness :
    ((ctxHello.fs ["r", "x", "doc.txt"]).content =
      some [104, 101, 108, 108, 111]) ∧
    (calculate_md5 ctxHello ["r", "x", "doc.txt"] =
        some (md5hex [104, 101, 108, 108, 111]) ∧
      (chunksOf 4096 [104, 101, 108, 108, 111]).flatten =
        [104, 101, 108, 108, 111] ∧
      (∀ ch ∈ chunksOf 4096 [104, 101, 108, 108, 111],
        ch ≠ [] ∧ ch.length ≤ 4096) ∧
      (md5hex [104, 101, 108, 108, 111]).length = 32 ∧
      (∀ a ∈ (md5hex [104, 101, 108, 108, 111]).data, a ∈ hexChars)) :=
  ⟨rfl, md5_streaming_spec ctxHello ["r", "x", "doc.txt"]
    [104, 101, 108, 108, 111] rfl⟩

/-- C1: in an uncancelled scan, two distinct enumerated files whose
readable contents are the same byte string `c` (and whose reported sizes
are its length) end up together in the result group keyed by their common
digest `md5hex c`. -/
theorem identical_content_same_group (ctx : Ctx)
    (hflag : ctx.flag = fun _ => false) (root : RootArg) (f1 f2 : Path)
    (c : List Byte)
    (h1 : f1 ∈ (get_all_files ctx root 0).1)
    (h2 : f2 ∈ (get_all_files ctx root 0).1) (hne : f1 ≠ f2)
    (hc1 : (ctx.fs f1).content = some c) (hc2 : (ctx.fs f2).content = some c)
    (hs1 : (ctx.fs f1).statSize = some c.length)
    (hs2 : (ctx.fs f2).statSize = some c.length) :
    ∃ g, (md5hex c, g) ∈ (find_duplicates ctx root).1 ∧ f1 ∈ g ∧ f2 ∈ g := by
  rw [find_duplicates_fst ctx hflag root]
  have hsz1 : get_file_size ctx f1 = some c.length := by
    rw [get_file_size, hs1]
  have hsz2 : get_file_size ctx f2 = some c.length := by
    rw [get_file_size, hs2]
  have hfv1 : f1 ∈ findVal (pureSize ctx (get_all_files ctx root 0).1 []) c.length :=
    pureSize_findVal_mem ctx _ [] c.length f1 h1 hsz1
  have hfv2 : f2 ∈ findVal (pureSize ctx (get_all_files ctx root 0).1 []) c.length :=
    pureSize_findVal_mem ctx _ [] c.length f2 h2 hsz2
  rcases findVal_mem (pureSize ctx (get_all_files ctx root 0).1 []) c.length with
    hempty | hbmem
  · rw [hempty] at hfv1
    simp at hfv1
  · have hblen : 1 < (findVal (pureSize ctx (get_all_files ctx root 0).1 [])
        c.length).length := one_lt_length_of_two_mem hfv1 hfv2 hne
    have hker : (c.length, findVal (pureSize ctx (get_all_files ctx root 0).1 [])
        c.length) ∈ keepMulti (pureSize ctx (get_all_files ctx root 0).1 []) :=
      mem_keepMulti _ _ _ hbmem hblen
    have hmd1 : calculate_md5 ctx f1 = some (md5hex c) :=
      calculate_md5_eq ctx f1 c hc1
    have hmd2 : calculate_md5 ctx f2 = some (md5hex c) :=
      calculate_md5_eq ctx f2 c hc2
    have hg1 : f1 ∈ findVal (pureHashBuckets ctx
        (keepMulti (pureSize ctx (get_all_files ctx root 0).1 [])) []) (md5hex c) :=
      pureHashBuckets_findVal_mem ctx _ [] c.length _ (md5hex c) f1 hker hfv1 hmd1
    have hg2 : f2 ∈ findVal (pureHashBuckets ctx
        (keepMulti (pureSize ctx (get_all_files ctx root 0).1 [])) []) (md5hex c) :=
      pureHashBuckets_findVal_mem ctx _ [] c.length _ (md5hex c) f2 hker hfv2 hmd2
    rcases findVal_mem (pureHashBuckets ctx
        (keepMulti (pureSize ctx (get_all_files ctx root 0).1 [])) [])
        (md5hex c) with hem | hgm
    · rw [hem] at hg1
      simp at hg1
    · exact ⟨_, mem_keepMulti _ _ _ hgm
        (one_lt_length_of_two_mem hg1 hg2 hne), hg1, hg2⟩

/-- C1 witness: the two "hello" files of the spec scenario share a group
keyed by the digest of "hello". -/
theorem identical_content_same_group_witness :
    (ctxHello.flag = fun _ => false) ∧
    (["r", "x", "doc.txt"] ∈ (get_all_files ctxHello rootHello 0).1) ∧
    (∃ g, (md5hex [104, 101, 108, 108, 111], g) ∈
        (find_duplicates ctxHello rootHello).1 ∧
      ["r", "x", "doc.txt"] ∈ g ∧ ["r", "y", "doc_copy.txt"] ∈ g) :=
  ⟨rfl, by decide,
    identical_content_same_group ctxHello rfl rootHello
      ["r", "x", "doc.txt"] ["r", "y", "doc_copy.txt"]
      [104, 101, 108, 108, 111] (by decide) (by decide) (by decide)
      rfl rfl rfl rfl⟩

/-- C9: the code's single invariant policy for empty files is "group them
all together": in an uncancelled scan with at least two distinct
enumerated, fully accessible 0-byte files, the result contains the group
keyed by the digest of the empty byte string, and every enumerated
accessible 0-byte file is in that group. -/
theorem empty_files_grouped_together (ctx : Ctx)
    (hflag : ctx.flag = fun _ => false) (root : RootArg) (f1 f2 : Path)
    (h1 : f1 ∈ (get_all_files ctx root 0).1)
    (h2 : f2 ∈ (get_all_files ctx root 0).1) (hne : f1 ≠ f2)
    (hc1 : (ctx.fs f1).content = some []) (hc2 : (ctx.fs f2).content = some [])
    (hs1 : (ctx.fs f1).statSize = some 0)
    (hs2 : (ctx.fs f2).statSize = some 0) :
    ∃ g, (md5hex [], g) ∈ (find_duplicates ctx root).1 ∧
      ∀ p ∈ (get_all_files ctx root 0).1,
        (ctx.fs p).statSize = some 0 → (ctx.fs p).content = some [] →
        p ∈ g := by
  rw [find_duplicates_fst ctx hflag root]
  have hmem0 : ∀ p ∈ (get_all_files ctx root 0).1,
      (ctx.fs p).statSize = some 0 →
      p ∈ findVal (pureSize ctx (get_all_files ctx root 0).1 []) 0 := by
    intro p hp hsz
    exact pureSize_findVal_mem ctx _ [] 0 p hp (by rw [get_file_size, hsz])
  have hfv1 := hmem0 f1 h1 hs1
  have hfv2 := hmem0 f2 h2 hs2
  rcases findVal_mem (pureSize ctx (get_all_files ctx root 0).1 []) 0 with
    hempty | hbmem
  · rw [hempty] at hfv1
    simp at hfv1
  · have hblen : 1 < (findVal (pureSize ctx (get_all_files ctx root 0).1 [])
        0).length := one_lt_length_of_two_mem hfv1 hfv2 hne
    have hker := mem_keepMulti _ _ _ hbmem hblen
    have hing : ∀ p ∈ (get_all_files ctx root 0).1,
        (ctx.fs p).statSize = some 0 → (ctx.fs p).content = some [] →
        p ∈ findVal (pureHashBuckets ctx
          (keepMulti (pureSize ctx (get_all_files ctx root 0).1 [])) [])
          (md5hex []) := by
      intro p hp hsz hc
      exact pureHashBuckets_findVal_mem ctx _ [] 0 _ (md5hex []) p hker
        (hmem0 p hp hsz) (calculate_md5_eq ctx p [] hc)
    have hg1 := hing f1 h1 hs1 hc1
    have hg2 := hing f2 h2 hs2 hc2
    rcases findVal_mem (pureHashBuckets ctx
        (keepMulti (pureSize ctx (get_all_files ctx root 0).1 [])) [])
        (md5hex []) with hem | hgm
    · rw [hem] at hg1
      simp at hg1
    · exact ⟨_, mem_keepMulti _ _ _ hgm
        (one_lt_length_of_two_mem hg1 hg2 hne), hing⟩

/-- C9 witness: the two empty files of the mixed fixture group together
under the digest of the empty string. -/
theorem empty_files_grouped_together_witness :
    (ctxMixed.flag = fun _ => false) ∧
    (["r", "e1"] ∈ (get_all_files ctxMixed rootMixed 0).1) ∧
    (∃ g, (md5hex [], g) ∈ (find_duplicates ctxMixed rootMixed).1 ∧
      ∀ p ∈ (get_all_files ctxMixed rootMixed 0).1,
        (ctxMixed.fs p).statSize = some 0 → (ctxMixed.fs p).content = some [] →
        p ∈ g) :=
  ⟨rfl, by decide,
    empty_files_grouped_together ctxMixed rfl rootMixed ["r", "e1"] ["r", "e2"]
      (by decide) (by decide) (by decide) rfl rfl rfl rfl⟩

/-- C5: every group in the mapping returned by `find_duplicates` has at
least two members, and every size bucket passed into the hashing stage
(the output of `group_by_size`) has at least two members; singleton
buckets are discarded at both stages. -/
theorem groups_have_at_least_two (ctx : Ctx) (root : RootArg) (t : Nat) :
    (∀ h g, (h, g) ∈ (find_duplicates ctx root).1 → 2 ≤ g.length) ∧
    (∀ files sz g, (sz, g) ∈ (group_by_size ctx files t).1 → 2 ≤ g.length) := by
  constructor
  · intro h g hmem
    rw [find_duplicates] at hmem
    by_cases h1 : ctx.flag (get_all_files ctx root 0).2.1 = true
    · simp [h1] at hmem
    · have h1' : ctx.flag (get_all_files ctx root 0).2.1 = false := by
        simpa using h1
      rw [h1'] at hmem
      simp only [Bool.false_eq_true, if_false] at hmem
      by_cases h2 : ctx.flag (group_by_size ctx (get_all_files ctx root 0).1
          ((get_all_files ctx root 0).2.1 + 1)).2.1 = true
      · simp [h2] at hmem
      · have h2' : ctx.flag (group_by_size ctx (get_all_files ctx root 0).1
            ((get_all_files ctx root 0).2.1 + 1)).2.1 = false := by
          simpa using h2
        rw [h2'] at hmem
        simp only [Bool.false_eq_true, if_false] at hmem
        rw [find_duplicates_by_hash] at hmem
        exact keepMulti_length _ _ _ hmem
  · intro files sz g hmem
    rw [group_by_size] at hmem
    exact keepMulti_length _ _ _ hmem

/-- C5 witness: the "hello" group of the spec scenario. -/
theorem groups_have_at_least_two_witness :
    ((md5hex [104, 101, 108, 108, 111],
        ([["r", "x", "doc.txt"], ["r", "y", "doc_copy.txt"]] : List Path)) ∈
      (find_duplicates ctxHello rootHello).1) ∧
    2 ≤ ([["r", "x", "doc.txt"], ["r", "y", "doc_copy.txt"]] : List Path).length :=
  ⟨by decide, (groups_have_at_least_two ctxHello rootHello 0).1
    (md5hex [104, 101, 108, 108, 111])
    [["r", "x", "doc.txt"], ["r", "y", "doc_copy.txt"]] (by decide)⟩

/-- C3 counterexample: the walk yields the hidden directory `.hid`, whose
non-hidden-named duplicate files are both enumerated and grouped — a file
inside a hidden directory appears in the enumerator's output and in a
result group, so hidden directories are in fact descended into. -/
theorem hidden_dir_descended_counterexample :
    ["r", ".hid", "a.txt"] ∈ (get_all_files ctxHidden rootHidden 0).1 ∧
    ["r", ".hid", "a.txt"] ∈
      (((find_duplicates ctxHidden rootHidden).1.map Prod.snd).flatten) := by
  constructor
  · decide
  · decide

/-- C3 amended: no file whose own base name starts with a dot appears in
the enumerator's output or in any result group; but files inside hidden
directories are not excluded (`os.walk`'s directory list is never pruned),
so only the file's own name decides hiddenness. -/
theorem hidden_name_files_excluded (ctx : Ctx) (root : RootArg) (t : Nat)
    (p : Path) :
    (p ∈ (get_all_files ctx root t).1 → is_hidden_file p = false) ∧
    (p ∈ (((find_duplicates ctx root).1.map Prod.snd).flatten) →
      is_hidden_file p = false) := by
  constructor
  · intro h
    exact ((get_all_files_shape ctx root t).2 p h).1
  · intro h
    exact ((get_all_files_shape ctx root 0).2 p
      (find_duplicates_flatten_mem ctx root p h)).1

/-- C3 amended witness: a grouped file of the spec scenario is not
hidden. -/
theorem hidden_name_files_excluded_witness :
    (["r", "x", "doc.txt"] ∈ (get_all_files ctxHello rootHello 0).1) ∧
    is_hidden_file ["r", "x", "doc.txt"] = false :=
  ⟨by decide,
    (hidden_name_files_excluded ctxHello rootHello 0 ["r", "x", "doc.txt"]).1
      (by decide)⟩

/-- C2 counterexample: scanning a nonexistent root raises nothing and
produces a result mapping — the empty one — together with the ordinary
start and completion progress reports, exactly as a successful scan with
zero duplicates would. -/
theorem missing_root_returns_mapping_counterexample :
    find_duplicates ctxHello RootArg.missing =
      ([], [(0, "Starting duplicate search..."),
        (100, "Found 0 duplicate groups")]) := by
  rfl

/-- C2 amended: for a root that does not exist or is not a directory, the
walk yields nothing, no stage processes any file, no `PathError` (or any
error) is raised — the code defines no such error — and `find_duplicates`
returns the empty mapping, indistinguishable from a successful scan with
zero duplicates. -/
theorem invalid_root_empty_mapping (ctx : Ctx) :
    (find_duplicates ctx RootArg.missing).1 = [] ∧
    (find_duplicates ctx RootArg.nonDir).1 = [] := by
  have key : ∀ root, walkRoot root = [] → (find_duplicates ctx root).1 = [] := by
    intro root hw
    have hg : get_all_files ctx root 0 = ([], 0, []) := by
      rw [get_all_files, hw]
      rfl
    have hs : group_by_size ctx [] 1 = ([], 1, []) := rfl
    have hh : find_duplicates_by_hash ctx [] 2 = ([], 2, []) := rfl
    rw [find_duplicates, hg]
    by_cases h1 : ctx.flag 0 = true <;> by_cases h2 : ctx.flag 1 = true <;>
      simp [h1, h2, hs, hh]
  exact ⟨key RootArg.missing rfl, key RootArg.nonDir rfl⟩

/-- C4: evaluating the scan at the failing input — stop requested at the
14th poll, during hashing, after `a` and `b` (contents "x") are hashed and
before `c` — returns the partial one-group map built from the files hashed
before cancellation, not the empty "stopped" result: the missing stop
check after the hashing stage lets partial results through. -/
theorem stop_during_hash_returns_partial_map :
    (find_duplicates ctxStop14 rootQuad).1 =
      [(md5hex [120], [["r", "a"], ["r", "b"]])] ∧
    (find_duplicates ctxStop14 rootQuad).1 ≠ [] := by
  constructor
  · decide
  · decide

/-- C8: in an uncancelled scan, a file whose size query fails is omitted
from the bucketing stage's output, and the stage's output is exactly what
it would be had the inaccessible files not been listed at all (all other
files unaffected, no error); likewise a file whose open/read fails is
omitted from the hashing stage's output, which equals the output on the
buckets with unreadable files removed. -/
theorem inaccessible_file_omitted (ctx : Ctx)
    (hflag : ctx.flag = fun _ => false) (files : List Path)
    (sg : List (Nat × List Path)) (t t' : Nat) (p : Path) :
    ((ctx.fs p).statSize = none →
      p ∉ (((group_by_size ctx files t).1.map Prod.snd).flatten)) ∧
    ((group_by_size ctx files t).1 =
      (group_by_size ctx
        (files.filter (fun q => (get_file_size ctx q).isSome)) t').1) ∧
    ((ctx.fs p).content = none →
      p ∉ (((find_duplicates_by_hash ctx sg t).1.map Prod.snd).flatten)) ∧
    ((find_duplicates_by_hash ctx sg t).1 =
      (find_duplicates_by_hash ctx
        (sg.map (fun b =>
          (b.1, b.2.filter (fun q => (calculate_md5 ctx q).isSome)))) t').1) := by
  refine ⟨?_, ?_, ?_, ?_⟩
  · intro hsz hmem
    rw [group_by_size_fst ctx hflag] at hmem
    have h2 := (keepMulti_flatten_sublist _).subset hmem
    refine pureSize_not_mem ctx p ?_ files [] (by simp) h2
    rw [get_file_size, hsz]
  · rw [group_by_size_fst ctx hflag, group_by_size_fst ctx hflag]
    rw [← pureSize_filter]
  · intro hc hmem
    rw [find_duplicates_by_hash_fst ctx hflag] at hmem
    have h2 := (keepMulti_flatten_sublist _).subset hmem
    refine pureHashBuckets_not_mem ctx p ?_ sg [] (by simp) h2
    rw [calculate_md5, hc]
  · rw [find_duplicates_by_hash_fst ctx hflag,
      find_duplicates_by_hash_fst ctx hflag]
    rw [← pureHashBuckets_filter]

/-- C8 witness: the unreadable file of the mixed fixture is omitted from
the bucketing stage's output. -/
theorem inaccessible_file_omitted_witness :
    (ctxMixed.flag = fun _ => false) ∧
    ((ctxMixed.fs ["r", "bad"]).statSize = none) ∧
    ["r", "bad"] ∉
      (((group_by_size ctxMixed (get_all_files ctxMixed rootMixed 0).1
        0).1.map Prod.snd).flatten) :=
  ⟨rfl, rfl,
    (inaccessible_file_omitted ctxMixed rfl
      (get_all_files ctxMixed rootMixed 0).1 [] 0 0 ["r", "bad"]).1 rfl⟩

/-- C10 counterexample: a well-formed walk listing a regular file
`real.txt` and a symlink `link.txt` that `_normalize_path` resolves to
the same path makes the scan append that resolved path twice; the pair
then survives both size and digest filters, and the returned mapping
holds a group containing one path twice — the claimed disjointness fails
on this input. -/
theorem symlink_alias_duplicate_in_group :
    WalkWF (walkRoot rootAlias) ∧
    ¬ ((((find_duplicates ctxAlias rootAlias).1.map Prod.snd).flatten).Nodup) := by
  constructor
  · decide
  · decide

/-- C10 amended: for every context and root whose normalized candidate
paths are pairwise distinct — normalization aliases no two of the walk's
directory entries, as when no symlinks are involved (a well-formed walk
with injective normalization suffices, `allPaths_nodup`) — the groups of
the returned mapping are pairwise disjoint and repetition-free: the
concatenation of all groups has no duplicate path. -/
theorem groups_pairwise_disjoint_no_alias (ctx : Ctx) (root : RootArg)
    (hnod : (allPaths ctx.normalize (walkRoot root)).Nodup) :
    (((find_duplicates ctx root).1.map Prod.snd).flatten).Nodup := by
  rw [find_duplicates]
  by_cases h1 : ctx.flag (get_all_files ctx root 0).2.1 = true
  · simp [h1]
  · have h1' : ctx.flag (get_all_files ctx root 0).2.1 = false := by simpa using h1
    rw [h1']
    simp only [Bool.false_eq_true, if_false]
    by_cases h2 : ctx.flag (group_by_size ctx (get_all_files ctx root 0).1
        ((get_all_files ctx root 0).2.1 + 1)).2.1 = true
    · simp [h2]
    · have h2' : ctx.flag (group_by_size ctx (get_all_files ctx root 0).1
          ((get_all_files ctx root 0).2.1 + 1)).2.1 = false := by simpa using h2
      rw [h2']
      simp only [Bool.false_eq_true, if_false]
      rw [find_duplicates_by_hash]
      refine (keepMulti_flatten_sublist _).nodup ?_
      refine hashBuckets_flatten_nodup ctx _ _ _ _ _ _ ?_
      simp only [List.map_nil, List.flatten_nil, List.append_nil]
      rw [group_by_size]
      refine (keepMulti_flatten_sublist _).nodup ?_
      refine sizeLoop_flatten_nodup ctx _ _ _ _ _ _ ?_
      simp only [List.map_nil, List.flatten_nil, List.append_nil]
      exact get_all_files_nodup ctx root 0 hnod

/-- C10 amended witness: the spec scenario aliases nothing and its result
groups share no path. -/
theorem groups_pairwise_disjoint_no_alias_witness :
    (allPaths ctxHello.normalize (walkRoot rootHello)).Nodup ∧
    (((find_duplicates ctxHello rootHello).1.map Prod.snd).flatten).Nodup :=
  ⟨by decide, groups_pairwise_disjoint_no_alias ctxHello rootHello (by decide)⟩

/-- C6: every enumeration-stage report lies in 0–30, every bucketing-stage
report in 30–60, every hashing-stage report in 60–100 (whatever the flag
does); and in an uncancelled scan the full percent sequence is
monotonically non-decreasing, starts at 0 and ends at 100. -/
theorem progress_monotone_in_ranges :
    (∀ (ctx : Ctx) (root : RootArg) (t : Nat) (ev : ℚ × String),
      ev ∈ (get_all_files ctx root t).2.2 → 0 ≤ ev.1 ∧ ev.1 ≤ 30) ∧
    (∀ (ctx : Ctx) (files : List Path) (t : Nat) (ev : ℚ × String),
      ev ∈ (group_by_size ctx files t).2.2 → 30 ≤ ev.1 ∧ ev.1 ≤ 60) ∧
    (∀ (ctx : Ctx) (sg : List (Nat × List Path)) (t : Nat) (ev : ℚ × String),
      ev ∈ (find_duplicates_by_hash ctx sg t).2.2 → 60 ≤ ev.1 ∧ ev.1 ≤ 100) ∧
    (∀ (ctx : Ctx) (root : RootArg), ctx.flag = (fun _ => false) →
      (((find_duplicates ctx root).2).map Prod.fst).Chain' (· ≤ ·) ∧
      (((find_duplicates ctx root).2).map Prod.fst).head? = some 0 ∧
      (((find_duplicates ctx root).2).map Prod.fst).getLast? = some 100) := by
  refine ⟨get_all_files_events_bound, group_by_size_events_bound,
    find_duplicates_by_hash_events_bound, ?_⟩
  intro ctx root hflag
  rw [find_duplicates_percents ctx hflag root]
  have hE : ∀ b ∈ ((get_all_files ctx root 0).2.2).map Prod.fst,
      0 ≤ b ∧ b ≤ 30 := by
    intro b hb
    rcases List.mem_map.1 hb with ⟨ev, hev, rfl⟩
    exact get_all_files_events_bound ctx root 0 ev hev
  have hS : ∀ b ∈ ((group_by_size ctx (get_all_files ctx root 0).1
      ((get_all_files ctx root 0).2.1 + 1)).2.2).map Prod.fst,
      30 ≤ b ∧ b ≤ 60 := by
    intro b hb
    rcases List.mem_map.1 hb with ⟨ev, hev, rfl⟩
    exact group_by_size_events_bound ctx _ _ ev hev
  have hH : ∀ b ∈ ((find_duplicates_by_hash ctx
      (group_by_size ctx (get_all_files ctx root 0).1
        ((get_all_files ctx root 0).2.1 + 1)).1
      ((group_by_size ctx (get_all_files ctx root 0).1
        ((get_all_files ctx root 0).2.1 + 1)).2.1 + 1)).2.2).map Prod.fst,
      60 ≤ b ∧ b ≤ 100 := by
    intro b hb
    rcases List.mem_map.1 hb with ⟨ev, hev, rfl⟩
    exact find_duplicates_by_hash_events_bound ctx _ _ ev hev
  have hEp : (((get_all_files ctx root 0).2.2).map Prod.fst).Pairwise (· ≤ ·) := by
    rw [get_all_files_events_fst ctx hflag]
    exact pairwise_le_map_range _ (fun j k h => enumPct_mono _ h) _
  have hSp : (((group_by_size ctx (get_all_files ctx root 0).1
      ((get_all_files ctx root 0).2.1 + 1)).2.2).map Prod.fst).Pairwise (· ≤ ·) := by
    rw [group_by_size_events_fst ctx hflag]
    exact pairwise_le_map_range _ (fun j k h => sizePct_mono _ h) _
  have hHp : (((find_duplicates_by_hash ctx
      (group_by_size ctx (get_all_files ctx root 0).1
        ((get_all_files ctx root 0).2.1 + 1)).1
      ((group_by_size ctx (get_all_files ctx root 0).1
        ((get_all_files ctx root 0).2.1 + 1)).2.1 + 1)).2.2).map
        Prod.fst).Pairwise (· ≤ ·) := by
    rw [find_duplicates_by_hash_events_fst ctx hflag]
    exact pairwise_le_map_range _ (fun j k h => hashPct_mono _ h) _
  refine ⟨(pairwise_assemble _ _ _ hEp hSp hHp hE hS hH).chain', rfl, ?_⟩
  have hshape : ∀ (pE pS pH : List ℚ),
      (0 : ℚ) :: (pE ++ (pS ++ (pH ++ [100]))) =
        ((0 : ℚ) :: (pE ++ (pS ++ pH))) ++ [100] := by
    intro pE pS pH
    simp [List.append_assoc]
  rw [hshape]
  exact List.getLast?_concat _

/-- C6 witness: the spec scenario's uncancelled scan. -/
theorem progress_monotone_in_ranges_witness :
    (ctxHello.flag = fun _ => false) ∧
    ((((find_duplicates ctxHello rootHello).2).map Prod.fst).Chain' (· ≤ ·) ∧
      (((find_duplicates ctxHello rootHello).2).map Prod.fst).head? = some 0 ∧
      (((find_duplicates ctxHello rootHello).2).map Prod.fst).getLast? =
        some 100) :=
  ⟨rfl, progress_monotone_in_ranges.2.2.2 ctxHello rootHello rfl⟩

end DupDetect
